import Mathlib

/-!
Verification of the Tower-Defense simulation engine.

This file is a shallow embedding of the engine sources
(src/engine/types.ts, constants.ts, effects.ts, grid.ts, targeting.ts,
sim.ts and src/state/store.ts) together with theorems settling the
specification's claims about them.

Modelling conventions:
* JavaScript numbers are modelled as real numbers; grid-cell coordinates,
  which the code only ever uses as integers (array indices, Math.floor
  results, unit neighbor offsets), are modelled as integers.
* Optional numeric fields (slowUntil, splashRadius, ...) are `Option ℝ`.
  JavaScript truthiness of such a field (both undefined and 0 are falsy)
  is `optTruthy`; comparisons against a possibly-undefined value are
  false, as in JavaScript.
* Math.random() is modelled by an explicit stream `Rng = ℕ → ℝ` threaded
  through the functions that consume it (entity-id generation).
* Entity ids of the form tag_time_random are modelled as a record of the
  tag, the time and the random draw (the string formatting is injective
  on distinct components, and ids are only ever compared for equality).
* Arrays are lists; the in-place mutations of the source (push, splice,
  indexed writes, mutation of an array element's fields) are modelled by
  value-semantic updates at the same positions.
-/

namespace TD

open scoped Classical

/-- JS truthiness of an optional number: undefined and 0 are falsy
(src/engine/effects.ts uses bare `mob.slowUntil &&` tests). -/
def optTruthy : Option ℝ → Prop
  | none => False
  | some x => x ≠ 0

/-- JS comparison `o > y` for a possibly-undefined `o` (false when undefined). -/
def optGT (o : Option ℝ) (y : ℝ) : Prop :=
  match o with
  | none => False
  | some x => y < x

/-- JS comparison `o <= y` for a possibly-undefined `o` (false when undefined). -/
def optLE (o : Option ℝ) (y : ℝ) : Prop :=
  match o with
  | none => False
  | some x => x ≤ y

/-- JS comparison `y >= o` for a possibly-undefined `o` (false when undefined). -/
def optGE (y : ℝ) (o : Option ℝ) : Prop :=
  match o with
  | none => False
  | some x => x ≤ y

/-- JS comparison `o < y` for a possibly-undefined `o` (false when undefined). -/
def optLT (o : Option ℝ) (y : ℝ) : Prop :=
  match o with
  | none => False
  | some x => x < y

/-- JS `o || d` on an optional number: the value when truthy, else the default
(used for `tower.projectileSpeed || 5`). -/
noncomputable def orDefault : Option ℝ → ℝ → ℝ
  | none, d => d
  | some x, d => if x = 0 then d else x

/-- Math.floor as a real-valued function (JS floor of a number). -/
noncomputable def jsFloor (x : ℝ) : ℝ := ((⌊x⌋ : ℤ) : ℝ)

/-! ## Core types (src/engine/types.ts) -/

/-- Tile kinds of the grid. -/
inductive TileType where
  | path
  | buildable
  | blocked
deriving DecidableEq

/-- Enemy kinds. -/
inductive MobType where
  | normal
  | fast
  | tank
  | flying
deriving DecidableEq

/-- Tower kinds. -/
inductive TowerKind where
  | arrow
  | cannon
  | frost
deriving DecidableEq

/-- Targeting strategies. -/
inductive TargetingStrategy where
  | first
  | last
  | strongest
  | weakest
  | nearest
deriving DecidableEq

/-- Game lifecycle states. -/
inductive GameState where
  | menu
  | playing
  | paused
  | gameOver
  | victory
deriving DecidableEq

/-- An integer grid cell (a Vec2 used in grid space: tile coordinates,
path waypoints, spawn points; the code only ever stores integers here). -/
structure Cell where
  x : ℤ
  y : ℤ
deriving DecidableEq

/-- A continuous world-space position (grid cell center = integer + 0.5). -/
structure Vec2 where
  x : ℝ
  y : ℝ

/-- An entity id `tag_time_random` (string interpolation modelled
structurally; ids are only compared for equality). -/
structure EntityId where
  tag : ℕ
  time : ℝ
  rnd : ℝ

/-- Tag values for the three id families. -/
def mobTag : ℕ := 0

/-- Tag for tower ids. -/
def towerTag : ℕ := 1

/-- Tag for projectile ids. -/
def projTag : ℕ := 2

/-- The stream of Math.random() draws, consumed in call order. -/
def Rng : Type := ℕ → ℝ

/-- Take one draw from the stream. -/
def Rng.next (r : Rng) : ℝ × Rng := (r 0, fun n => r (n + 1))

/-- Enemy mob record (types.ts `Mob`). -/
structure Mob where
  id : EntityId
  pos : Vec2
  hp : ℝ
  maxHp : ℝ
  speed : ℝ
  armor : ℝ
  bounty : ℝ
  kind : MobType
  slowUntil : Option ℝ
  slowMultiplier : Option ℝ
  pathProgress : ℝ
  isDead : Bool
  reachedEnd : Bool

/-- Tower record (types.ts `Tower`). -/
structure Tower where
  id : EntityId
  tile : Cell
  range : ℝ
  rate : ℝ
  damage : ℝ
  projectileSpeed : Option ℝ
  lastFiredAt : ℝ
  kind : TowerKind
  tier : ℕ
  cost : ℝ
  targetId : Option EntityId
  splashRadius : Option ℝ
  slowDuration : Option ℝ
  slowAmount : Option ℝ

/-- Projectile record (types.ts `Projectile`). -/
structure Projectile where
  id : EntityId
  pos : Vec2
  targetId : EntityId
  speed : ℝ
  damage : ℝ
  splashRadius : Option ℝ
  towerId : EntityId
  createdAt : ℝ

/-- One spawn entry of a wave (delay in seconds from wave start per the
type's documentation, enemy kind, count, spacing between spawns). -/
structure WaveEntry where
  delay : ℝ
  kind : MobType
  count : ℕ
  spacing : ℝ

/-- Wave record with its mutable progress fields (types.ts `Wave`). -/
structure Wave where
  id : ℕ
  entries : List WaveEntry
  isActive : Bool
  isComplete : Bool
  startTime : Option ℝ
  nextSpawnTime : Option ℝ
  currentEntryIndex : ℕ
  currentSpawnCount : ℕ
  bonusGiven : Bool

/-- Game map (types.ts `GameMap`): tile grid, precomputed paths, spawn
points and base position, all in grid space. -/
structure GameMap where
  width : ℕ
  height : ℕ
  tiles : List (List TileType)
  paths : List (List Cell)
  spawnPoints : List Cell
  basePosition : Cell

/-- The aggregate game state (types.ts `Game`). -/
structure Game where
  time : ℝ
  state : GameState
  speed : ℝ
  mobs : List Mob
  towers : List Tower
  projectiles : List Projectile
  waves : List Wave
  currentWave : ℕ
  totalWaves : ℕ
  money : ℝ
  lives : ℝ
  score : ℝ
  map : GameMap
  selectedTower : Option EntityId
  hoveredTile : Option Cell
  buildMode : Option TowerKind
  lastTickTime : ℝ
  frameTime : ℝ
  tickCount : ℕ

/-! ## Constants (src/engine/constants.ts) -/

/-- Map width in tiles (MAP_SIZE.width). -/
def MAP_W : ℤ := 20

/-- Map height in tiles (MAP_SIZE.height). -/
def MAP_H : ℤ := 15

/-- Tick duration in milliseconds: 1000 / 60. -/
noncomputable def TICK_DURATION : ℝ := 1000 / 60

/-! ## Grid utilities (src/engine/grid.ts, class Grid) -/

/-- Grid.isValid: the cell is inside the fixed 20 x 15 map extent. -/
def isValid (x y : ℤ) : Bool :=
  decide (0 ≤ x ∧ x < MAP_W ∧ 0 ≤ y ∧ y < MAP_H)

/-- Grid.isValidVec. -/
def isValidVec (c : Cell) : Bool := isValid c.x c.y

/-- Grid.gridToWorld: cell center in world space. -/
noncomputable def gridToWorld (gx gy : ℤ) : Vec2 :=
  ⟨(gx : ℝ) + 0.5, (gy : ℝ) + 0.5⟩

/-- A grid cell read as a raw world point (no center offset), as when the
code passes a tile directly to a distance computation. -/
noncomputable def cellVec (c : Cell) : Vec2 := ⟨(c.x : ℝ), (c.y : ℝ)⟩

/-- Grid.distance: Euclidean distance between two points. -/
noncomputable def distance (a b : Vec2) : ℝ :=
  Real.sqrt ((a.x - b.x) * (a.x - b.x) + (a.y - b.y) * (a.y - b.y))

/-- Grid.distanceSquared. -/
noncomputable def distanceSquared (a b : Vec2) : ℝ :=
  (a.x - b.x) * (a.x - b.x) + (a.y - b.y) * (a.y - b.y)

/-- Grid.getNeighbors: the four 4-connected neighbors in source order
(up, right, down, left), filtered to map bounds. -/
def getNeighbors (c : Cell) : List Cell :=
  [⟨c.x, c.y - 1⟩, ⟨c.x + 1, c.y⟩, ⟨c.x, c.y + 1⟩, ⟨c.x - 1, c.y⟩].filter isValidVec

/-! ## Pathfinder (src/engine/grid.ts, class Pathfinder) -/

/-- Array lookup tiles[y][x]. In the source, an out-of-range x inside an
existing row y yields undefined, but a missing row y makes tiles[y][x]
throw a TypeError. Both cases are modelled as none; the pathfinding
theorems are therefore stated over maps whose tiles array covers the
full grid (tilesCover below), where the missing-row case is unreachable
and the model agrees with the source at every input. -/
def tileAt (m : GameMap) (c : Cell) : Option TileType :=
  if c.y < 0 ∨ c.x < 0 then none
  else (m.tiles.get? c.y.toNat).bind (fun row => row.get? c.x.toNat)

/-- Pathfinder.isWalkable: valid and the tile is path or buildable. -/
def isWalkable (m : GameMap) (c : Cell) : Bool :=
  isValidVec c &&
    (match tileAt m c with
     | some TileType.path => true
     | some TileType.buildable => true
     | _ => false)

/-- The tiles array covers the full grid: one row per y below MAP_H,
each holding a tile for every x below MAP_W. On such maps every
tiles[y][x] access behind an isValid guard is defined in the source,
so no TypeError path exists and the total model is faithful. -/
def tilesCover (m : GameMap) : Bool :=
  (m.tiles.length == 15) && m.tiles.all (fun row => row.length == 20)

/-- Pathfinder.heuristic: Manhattan distance. -/
def heuristic (a b : Cell) : ℕ :=
  (a.x - b.x).natAbs + (a.y - b.y).natAbs

/-- A-star search node (grid.ts class AStarNode): position, cost from
start, heuristic cost, parent link. -/
inductive ANode where
  | mk (pos : Cell) (g : ℕ) (h : ℕ) (parent : Option ANode)

/-- The node's position. -/
def ANode.pos : ANode → Cell
  | .mk p _ _ _ => p

/-- The node's cost from the start. -/
def ANode.g : ANode → ℕ
  | .mk _ g _ _ => g

/-- The node's stored heuristic value. -/
def ANode.h : ANode → ℕ
  | .mk _ _ h _ => h

/-- The node's parent link. -/
def ANode.parent : ANode → Option ANode
  | .mk _ _ _ p => p

/-- f = g + h. -/
def ANode.f (n : ANode) : ℕ := n.g + n.h

/-- Pathfinder.reconstructPath: walk parent links back to the start,
collecting positions front to back. -/
def ANode.chain : ANode → List Cell
  | .mk p _ _ none => [p]
  | .mk p _ _ (some q) => ANode.chain q ++ [p]

/-- A placeholder node (never used on the verified control paths; list
indexing inside the search is always in range). -/
def dummyNode : ANode := .mk ⟨0, 0⟩ 0 0 none

/-- The minimum f value of a list of nodes. -/
def minF : List ANode → ℕ
  | [] => 0
  | [n] => n.f
  | n :: ns => min n.f (minF ns)

/-- Index of the first node with the lowest f cost, as the source's linear
scan (which starts at index 0 and only moves on a strictly smaller f). -/
def firstMinIdx : List ANode → ℕ
  | [] => 0
  | [_] => 0
  | n :: ns => if n.f ≤ minF ns then 0 else firstMinIdx ns + 1

/-- openSet.find: first node at the given position. -/
def findNode : List ANode → Cell → Option ANode
  | [], _ => none
  | n :: ns, c => if n.pos = c then some n else findNode ns c

/-- In-place update of the found node's g and parent (the source mutates
the node object inside the array; position and h are unchanged). -/
def updateNode : List ANode → Cell → ℕ → ANode → List ANode
  | [], _, _, _ => []
  | n :: ns, c, g2, par =>
      if n.pos = c then ANode.mk n.pos g2 n.h (some par) :: ns
      else n :: updateNode ns c g2 par

/-- JS Set.add on the closed set of cells. -/
def setAdd (l : List Cell) (c : Cell) : List Cell :=
  if c ∈ l then l else c :: l

/-- One neighbor step of the A-star inner loop: skip closed or unwalkable
cells; otherwise insert a new node at the end of the open set, or lower an
existing node's g when the new route is strictly cheaper. -/
def processNeighbor (m : GameMap) (endC : Cell) (cur : ANode) (cs : List Cell)
    (os : List ANode) (np : Cell) : List ANode :=
  if np ∈ cs ∨ isWalkable m np = false then os
  else
    let tg := cur.g + 1
    match findNode os np with
    | none => os ++ [ANode.mk np tg (heuristic np endC) (some cur)]
    | some ex => if tg < ex.g then updateNode os np tg cur else os

/-- The A-star main loop (grid.ts findPath while loop). Fuel only bounds
the iteration count; it is chosen larger than the number of valid cells,
which the loop can never exceed (each iteration closes a fresh valid
cell), so the fuel branch is never taken from a reachable state. -/
def astarLoop (m : GameMap) (endC : Cell) : ℕ → List ANode → List Cell → List Cell
  | 0, _, _ => []
  | fuel + 1, os, cs =>
    match os with
    | [] => []
    | _ :: _ =>
      let i := firstMinIdx os
      let cur := os.getD i dummyNode
      if cur.pos = endC then cur.chain
      else
        let cs2 := setAdd cs cur.pos
        let os2 := (getNeighbors cur.pos).foldl
          (fun acc np => processNeighbor m endC cur cs2 acc np) (os.eraseIdx i)
        astarLoop m endC fuel os2 cs2

/-- Pathfinder.findPath: A-star from start to end over the walkable grid;
empty result when either endpoint is out of bounds or the open set runs
dry. -/
def findPath (m : GameMap) (s e : Cell) : List Cell :=
  if isValidVec s = false ∨ isValidVec e = false then []
  else astarLoop m e ((MAP_W.toNat * MAP_H.toNat) + 1)
    [ANode.mk s 0 (heuristic s e) none] []

/-- isBuildable (grid.ts): valid position whose tile is buildable. -/
def isBuildable (m : GameMap) (c : Cell) : Bool :=
  isValidVec c &&
    (match tileAt m c with
     | some TileType.buildable => true
     | _ => false)

/-! ## Status effects (src/engine/effects.ts) -/

/-- applySlow: record the new slow (expiry now + duration, multiplier
clamped to at least 0.1) unless a still-active slow is strictly stronger
or strictly longer. The truthiness tests follow the source exactly. -/
noncomputable def applySlow (mob : Mob) (duration amount currentTime : ℝ) : Mob :=
  -- the source's locals newSlowUntil = currentTime + duration and
  -- newSlowMultiplier = max(0.1, amount) are inlined at their two uses
  if optTruthy mob.slowUntil ∧ optGT mob.slowUntil currentTime then
    if optTruthy mob.slowMultiplier ∧ optLT mob.slowMultiplier (max 0.1 amount) then mob
    else if optGT mob.slowUntil (currentTime + duration) then mob
    else { mob with slowUntil := some (currentTime + duration),
                    slowMultiplier := some (max 0.1 amount) }
  else { mob with slowUntil := some (currentTime + duration),
                  slowMultiplier := some (max 0.1 amount) }

/-- updateMobSpeed: base speed once the slow expired, else base speed
times the multiplier when one is (truthily) present. -/
noncomputable def updateMobSpeed (mob : Mob) (currentTime : ℝ) : ℝ :=
  if optTruthy mob.slowUntil ∧ optLE mob.slowUntil currentTime then mob.speed
  else if optTruthy mob.slowMultiplier then mob.speed * mob.slowMultiplier.getD 0
  else mob.speed

/-- cleanupExpiredEffects: clear the slow fields once expired. -/
noncomputable def cleanupExpiredEffects (mob : Mob) (currentTime : ℝ) : Mob :=
  if optTruthy mob.slowUntil ∧ optLE mob.slowUntil currentTime then
    { mob with slowUntil := none, slowMultiplier := none }
  else mob

/-- getEffectiveDamage: flat armor reduction with a minimum of 1. -/
noncomputable def getEffectiveDamage (baseDamage armor : ℝ) : ℝ :=
  max 1 (baseDamage - armor)

/-- applyDamage: clamp hp at 0 and set the dead flag when hp reaches 0. -/
noncomputable def applyDamage (mob : Mob) (damage : ℝ) : Mob :=
  let newHp := max 0 (mob.hp - damage)
  { mob with hp := newHp, isDead := decide (newHp ≤ 0) }

/-! ## Targeting (src/engine/targeting.ts) -/

/-- The range filter of findTarget: alive, not past the base, within
Euclidean range of the tower's tile. -/
noncomputable def inRangeMobs (tower : Tower) : List Mob → List Mob
  | [] => []
  | m :: ms =>
      if m.isDead = false ∧ m.reachedEnd = false ∧
          distance (cellVec tower.tile) m.pos ≤ tower.range then
        m :: inRangeMobs tower ms
      else inRangeMobs tower ms

/-- The linear scan of findFirstTarget: running best and best progress,
starting from null and -1, updated on strictly greater progress. -/
noncomputable def firstScan : List Mob → Option Mob × ℝ → Option Mob × ℝ
  | [], acc => acc
  | m :: ms, (best, bp) =>
      if bp < m.pathProgress then firstScan ms (some m, m.pathProgress)
      else firstScan ms (best, bp)

/-- findFirstTarget: highest path progress, first encountered wins ties. -/
noncomputable def findFirstTarget (mobs : List Mob) : Option Mob :=
  (firstScan mobs (none, -1)).1

/-- The linear scan of findLastTarget (initial best progress 2). -/
noncomputable def lastScan : List Mob → Option Mob × ℝ → Option Mob × ℝ
  | [], acc => acc
  | m :: ms, (best, bp) =>
      if m.pathProgress < bp then lastScan ms (some m, m.pathProgress)
      else lastScan ms (best, bp)

/-- findLastTarget: lowest path progress. -/
noncomputable def findLastTarget (mobs : List Mob) : Option Mob :=
  (lastScan mobs (none, 2)).1

/-- The linear scan of findStrongestTarget (initial best hp -1). -/
noncomputable def strongScan : List Mob → Option Mob × ℝ → Option Mob × ℝ
  | [], acc => acc
  | m :: ms, (best, bh) =>
      if bh < m.hp then strongScan ms (some m, m.hp)
      else strongScan ms (best, bh)

/-- findStrongestTarget: highest hp. -/
noncomputable def findStrongestTarget (mobs : List Mob) : Option Mob :=
  (strongScan mobs (none, -1)).1

/-- The linear scan of findWeakestTarget; the source initializes the best
hp to Infinity, modelled by a none sentinel that every value beats. -/
noncomputable def weakScan : List Mob → Option Mob × Option ℝ → Option Mob × Option ℝ
  | [], acc => acc
  | m :: ms, (best, bh) =>
      match bh with
      | none => weakScan ms (some m, some m.hp)
      | some b => if m.hp < b then weakScan ms (some m, some m.hp) else weakScan ms (best, bh)

/-- findWeakestTarget: lowest hp. -/
noncomputable def findWeakestTarget (mobs : List Mob) : Option Mob :=
  (weakScan mobs (none, none)).1

/-- The linear scan of findNearestTarget on squared distance; the source
initializes the best distance to Infinity, modelled by a none sentinel. -/
noncomputable def nearScan (towerPos : Vec2) : List Mob → Option Mob × Option ℝ → Option Mob × Option ℝ
  | [], acc => acc
  | m :: ms, (best, bd) =>
      match bd with
      | none => nearScan towerPos ms (some m, some (distanceSquared towerPos m.pos))
      | some b =>
          if distanceSquared towerPos m.pos < b then
            nearScan towerPos ms (some m, some (distanceSquared towerPos m.pos))
          else nearScan towerPos ms (best, bd)

/-- findNearestTarget: smallest squared distance to the tower. -/
noncomputable def findNearestTarget (mobs : List Mob) (towerPos : Vec2) : Option Mob :=
  (nearScan towerPos mobs (none, none)).1

/-- findTarget: filter to candidates in range, then dispatch on the
strategy; null when no candidate remains. -/
noncomputable def findTarget (tower : Tower) (mobs : List Mob)
    (strategy : TargetingStrategy) : Option Mob :=
  -- the source's local inRange = the filtered candidate list is inlined
  if (inRangeMobs tower mobs).length = 0 then none
  else
    match strategy with
    | .first => findFirstTarget (inRangeMobs tower mobs)
    | .last => findLastTarget (inRangeMobs tower mobs)
    | .strongest => findStrongestTarget (inRangeMobs tower mobs)
    | .weakest => findWeakestTarget (inRangeMobs tower mobs)
    | .nearest => findNearestTarget (inRangeMobs tower mobs) (cellVec tower.tile)

/-- getMobsInSplashRadius: alive, not past the base, within the radius of
the impact point. -/
noncomputable def getMobsInSplashRadius (center : Vec2) (radius : ℝ) : List Mob → List Mob
  | [] => []
  | m :: ms =>
      if m.isDead = false ∧ m.reachedEnd = false ∧ distance center m.pos ≤ radius then
        m :: getMobsInSplashRadius center radius ms
      else getMobsInSplashRadius center radius ms

/-- applySplashDamage: pair each alive, in-radius mob with its linearly
falling-off damage, floored and clamped to at least 1. -/
noncomputable def applySplashDamage (center : Vec2) (radius baseDamage : ℝ) :
    List Mob → List (Mob × ℝ)
  | [] => []
  | m :: ms =>
      -- the source's locals distance and falloff = 1 - (distance / radius) * 0.5
      -- are inlined
      if m.isDead = true ∨ m.reachedEnd = true then
        applySplashDamage center radius baseDamage ms
      else if distance center m.pos ≤ radius then
        (m, max 1 (jsFloor (baseDamage * (1 - distance center m.pos / radius * 0.5)))) ::
          applySplashDamage center radius baseDamage ms
      else applySplashDamage center radius baseDamage ms

/-! ## Static definitions (src/engine/constants.ts) -/

/-- Mob base stats (name, color and size are rendering-only and omitted). -/
structure MobDefinition where
  kind : MobType
  hp : ℝ
  speed : ℝ
  armor : ℝ
  bounty : ℝ

/-- MOB_DEFINITIONS. -/
noncomputable def mobDefOf : MobType → MobDefinition
  | .normal => ⟨.normal, 50, 1, 0, 10⟩
  | .fast => ⟨.fast, 30, 2, 0, 15⟩
  | .tank => ⟨.tank, 150, 0.5, 5, 25⟩
  | .flying => ⟨.flying, 80, 1.5, 2, 30⟩

/-- Tower base stats. -/
structure BaseStats where
  range : ℝ
  rate : ℝ
  damage : ℝ
  projectileSpeed : Option ℝ
  splashRadius : Option ℝ
  slowDuration : Option ℝ
  slowAmount : Option ℝ

/-- Tower definition (name, description and the upgrade table are not
used by the verified operations and are omitted). -/
structure TowerDefinition where
  kind : TowerKind
  baseCost : ℝ
  baseStats : BaseStats
  targetingStrategy : TargetingStrategy

/-- TOWER_DEFINITIONS by kind. -/
noncomputable def towerDefOf : TowerKind → TowerDefinition
  | .arrow => ⟨.arrow, 20, ⟨3, 2, 25, some 8, none, none, none⟩, .first⟩
  | .cannon => ⟨.cannon, 40, ⟨2.5, 0.8, 80, some 4, some 1.5, none, none⟩, .strongest⟩
  | .frost => ⟨.frost, 30, ⟨2.5, 1.5, 15, some 6, none, some 3, some 0.5⟩, .first⟩

/-- The record key of the arrow tower. -/
def arrowName : String := "arrow"

/-- The record key of the cannon tower. -/
def cannonName : String := "cannon"

/-- The record key of the frost tower. -/
def frostName : String := "frost"

/-- TOWER_DEFINITIONS as the string-keyed record placeTower indexes
(undefined for unknown keys). -/
noncomputable def towerDefByName (s : String) : Option TowerDefinition :=
  if s = arrowName then some (towerDefOf .arrow)
  else if s = cannonName then some (towerDefOf .cannon)
  else if s = frostName then some (towerDefOf .frost)
  else none

/-! ## Simulation engine (src/engine/sim.ts) -/

/-- createMob: a fresh mob of the given kind at the spawn point's cell
center, with stats from MOB_DEFINITIONS and a random id component. -/
noncomputable def createMob (kind : MobType) (spawnPos : Cell) (currentTime : ℝ)
    (r : Rng) : Mob × Rng :=
  let md := mobDefOf kind
  ({ id := ⟨mobTag, currentTime, (r.next).1⟩,
     pos := gridToWorld spawnPos.x spawnPos.y,
     hp := md.hp, maxHp := md.hp, speed := md.speed, armor := md.armor,
     bounty := md.bounty, kind := kind,
     slowUntil := none, slowMultiplier := none,
     pathProgress := 0, isDead := false, reachedEnd := false }, (r.next).2)

/-- createProjectile: from the tower's tile (no center offset in the
source) toward the target, with a random id component. -/
noncomputable def createProjectile (tower : Tower) (target : Mob) (currentTime : ℝ)
    (r : Rng) : Projectile × Rng :=
  ({ id := ⟨projTag, currentTime, (r.next).1⟩,
     pos := cellVec tower.tile,
     targetId := target.id,
     speed := orDefault tower.projectileSpeed 5,
     damage := tower.damage,
     splashRadius := tower.splashRadius,
     towerId := tower.id,
     createdAt := currentTime }, (r.next).2)

/-- updateWaves: activate the current wave when needed, then spawn at most
one mob per tick according to the current entry, advancing entry and
completion state; the entry-delay test compares against absolute
simulation time, exactly as the source does. -/
noncomputable def updateWaves (g : Game) (r : Rng) : Game × Rng :=
  if g.totalWaves ≤ g.currentWave then (g, r)
  else
    match g.waves.get? g.currentWave with
    | none => (g, r)
    | some w0 =>
      if w0.isComplete = true then (g, r)
      else
        let w1 := if w0.isActive = false then
            { w0 with
                isActive := true
                startTime := some g.time
                nextSpawnTime := some g.time
                currentEntryIndex := 0
                currentSpawnCount := 0 }
          else w0
        match w1.entries.get? w1.currentEntryIndex with
        | none => ({ g with waves := g.waves.set g.currentWave w1 }, r)
        | some entry =>
          if entry.delay ≤ g.time then
            if optTruthy w1.nextSpawnTime ∧ optGE g.time w1.nextSpawnTime then
              if w1.currentSpawnCount < entry.count then
                let cm := createMob entry.kind (g.map.spawnPoints.getD 0 ⟨0, 0⟩) g.time r
                ({ g with
                     mobs := g.mobs ++ [cm.1]
                     waves := g.waves.set g.currentWave
                       { w1 with
                           currentSpawnCount := w1.currentSpawnCount + 1
                           nextSpawnTime := some (g.time + entry.spacing) } }, cm.2)
              else
                let w2 := { w1 with
                    currentEntryIndex := w1.currentEntryIndex + 1
                    currentSpawnCount := 0 }
                if w2.entries.length ≤ w2.currentEntryIndex then
                  ({ g with
                       waves := g.waves.set g.currentWave { w2 with isComplete := true }
                       money := g.money + (50 + (w2.id : ℝ) * 10) }, r)
                else ({ g with waves := g.waves.set g.currentWave w2 }, r)
            else ({ g with waves := g.waves.set g.currentWave w1 }, r)
          else ({ g with waves := g.waves.set g.currentWave w1 }, r)

/-- One mob's movement step of updateMobs: effect cleanup, slowed speed,
then advance along the first precomputed path, snapping to the base and
setting reachedEnd on crossing into the final waypoint. List accesses at
the floor-derived indices mirror the source's array reads, which are only
in range when pathProgress lies in the unit interval. -/
noncomputable def moveMob (m : GameMap) (time dt : ℝ) (mob : Mob) : Mob :=
  if mob.isDead = true ∨ mob.reachedEnd = true then mob
  else
    let mob1 := cleanupExpiredEffects mob time
    let currentSpeed := updateMobSpeed mob1 time
    match m.paths.head? with
    | none => mob1
    | some path =>
      if 1 < path.length then
        let pathProgress := mob1.pathProgress
        let pathIndex : ℤ := ⌊pathProgress * ((path.length : ℝ) - 1)⌋
        let nextPathIndex : ℤ := min (pathIndex + 1) ((path.length : ℤ) - 1)
        let currentPathPos := path.getD pathIndex.toNat ⟨0, 0⟩
        let nextPathPos := path.getD nextPathIndex.toNat ⟨0, 0⟩
        let moveDistance := currentSpeed * dt
        let segLen := distance (cellVec currentPathPos) (cellVec nextPathPos)
        if 0 < segLen then
          let progressInSegment := pathProgress * ((path.length : ℝ) - 1) - (pathIndex : ℝ)
          let newProg := progressInSegment + moveDistance / segLen
          if 1 ≤ newProg then
            let newPathIndex : ℤ := min (nextPathIndex + 1) ((path.length : ℤ) - 1)
            let mob2 := { mob1 with
              pathProgress := (newPathIndex : ℝ) / ((path.length : ℝ) - 1) }
            if (path.length : ℤ) - 1 ≤ newPathIndex then
              { mob2 with reachedEnd := true, pos := cellVec m.basePosition }
            else
              { mob2 with
                  pos := gridToWorld (path.getD newPathIndex.toNat ⟨0, 0⟩).x
                    (path.getD newPathIndex.toNat ⟨0, 0⟩).y }
          else
            { mob1 with
              pos := ⟨(currentPathPos.x : ℝ) + ((nextPathPos.x : ℝ) - (currentPathPos.x : ℝ)) * newProg + 0.5,
                      (currentPathPos.y : ℝ) + ((nextPathPos.y : ℝ) - (currentPathPos.y : ℝ)) * newProg + 0.5⟩,
              pathProgress := ((pathIndex : ℝ) + newProg) / ((path.length : ℝ) - 1) }
        else mob1
      else mob1

/-- updateMobs: move every live mob (the loop writes each slot back). -/
noncomputable def updateMobs (g : Game) (dt : ℝ) : Game :=
  { g with mobs := g.mobs.map (moveMob g.map g.time dt) }

/-- The tower loop of updateTowers: per tower, find a target with the
kind's configured strategy and fire when the cooldown elapsed, stamping
lastFiredAt and targetId; projectiles are appended in tower order. -/
noncomputable def towersStep (g : Game) : List Tower → Rng → List Tower × List Projectile × Rng
  | [], r => ([], [], r)
  | t :: ts, r =>
      let td := towerDefOf t.kind
      match findTarget t g.mobs td.targetingStrategy with
      | some target =>
          if 1 / t.rate ≤ g.time - t.lastFiredAt then
            let pr := createProjectile t target g.time r
            let rest := towersStep g ts pr.2
            ({ t with lastFiredAt := g.time, targetId := some target.id } :: rest.1,
              pr.1 :: rest.2.1, rest.2.2)
          else
            let rest := towersStep g ts r
            (t :: rest.1, rest.2.1, rest.2.2)
      | none =>
          let rest := towersStep g ts r
          (t :: rest.1, rest.2.1, rest.2.2)

/-- updateTowers. -/
noncomputable def updateTowers (g : Game) (r : Rng) : Game × Rng :=
  let res := towersStep g g.towers r
  ({ g with towers := res.1, projectiles := g.projectiles ++ res.2.1 }, res.2.2)

/-- mobs.find by id (first match). -/
noncomputable def findMobById : List Mob → EntityId → Option Mob
  | [], _ => none
  | m :: ms, i => if m.id = i then some m else findMobById ms i

/-- mobs.findIndex by id (first match). -/
noncomputable def mobIdxById : List Mob → EntityId → Option ℕ
  | [], _ => none
  | m :: ms, i => if m.id = i then some 0 else (mobIdxById ms i).map (· + 1)

/-- towers.find by id (first match). -/
noncomputable def findTowerById : List Tower → EntityId → Option Tower
  | [], _ => none
  | t :: ts, i => if t.id = i then some t else findTowerById ts i

/-- applyProjectileHit: splash damage with per-kill bounties, or
single-target damage with armor reduction plus the frost slow, with the
bounty credited when the written-back mob is dead. -/
noncomputable def applyProjectileHit (g : Game) (p : Projectile) (target : Mob)
    (tower : Tower) : Game :=
  if optTruthy p.splashRadius then
    let radius := p.splashRadius.getD 0
    let splashTargets := getMobsInSplashRadius p.pos radius g.mobs
    let damageResults := applySplashDamage p.pos radius p.damage splashTargets
    damageResults.foldl (fun acc res =>
      match mobIdxById acc.mobs res.1.id with
      | none => acc
      | some idx =>
        let damaged := applyDamage res.1 res.2
        let acc2 := { acc with mobs := acc.mobs.set idx damaged }
        if damaged.isDead = true then { acc2 with money := acc2.money + res.1.bounty }
        else acc2) g
  else
    let effectiveDamage := getEffectiveDamage p.damage target.armor
    match mobIdxById g.mobs target.id with
    | none => g
    | some idx =>
      let damaged := applyDamage target effectiveDamage
      let written :=
        if tower.kind = TowerKind.frost ∧ optTruthy tower.slowDuration ∧
            optTruthy tower.slowAmount then
          applySlow damaged (tower.slowDuration.getD 0) (tower.slowAmount.getD 0) g.time
        else damaged
      let g2 := { g with mobs := g.mobs.set idx written }
      if written.isDead = true then { g2 with money := g2.money + target.bounty }
      else g2

/-- The projectile loop of updateProjectiles. The source iterates the
array backwards with in-place splices, so later projectiles resolve
first; the recursion processes the tail (the higher indices) before the
head, against the game state those resolutions produced. -/
noncomputable def projStep (dt : ℝ) : List Projectile → Game → List Projectile × Game
  | [], g => ([], g)
  | p :: rest, g =>
      let res := projStep dt rest g
      match findMobById res.2.mobs p.targetId with
      | none => res
      | some target =>
        if target.isDead = true then res
        else
          let dirx := target.pos.x - p.pos.x
          let diry := target.pos.y - p.pos.y
          let dist0 := Real.sqrt (dirx * dirx + diry * diry)
          if dist0 ≤ 0.1 then
            match findTowerById res.2.towers p.towerId with
            | some tw => (res.1, applyProjectileHit res.2 p target tw)
            | none => res
          else
            let moveRatio := p.speed * dt / dist0
            ({ p with pos := ⟨p.pos.x + dirx * moveRatio, p.pos.y + diry * moveRatio⟩ } :: res.1,
              res.2)

/-- updateProjectiles. -/
noncomputable def updateProjectiles (g : Game) (dt : ℝ) : Game :=
  { (projStep dt g.projectiles g).2 with projectiles := (projStep dt g.projectiles g).1 }

/-- The projectile age filter of cleanupEntities (keep those younger than
the five-second maximum age). -/
noncomputable def pruneOldProjectiles (time : ℝ) : List Projectile → List Projectile
  | [] => []
  | p :: ps =>
      if time - p.createdAt < 5 then p :: pruneOldProjectiles time ps
      else pruneOldProjectiles time ps

/-- cleanupEntities: drop dead mobs and timed-out projectiles. -/
noncomputable def cleanupEntities (g : Game) : Game :=
  { g with
      mobs := g.mobs.filter (fun m => !m.isDead)
      projectiles := pruneOldProjectiles g.time g.projectiles }

/-- checkGameState: one life lost per reached-end mob, which is then
removed; the lose transition; the one-shot wave clear bonus; the win
transition. -/
noncomputable def checkGameState (g : Game) : Game :=
  let mobsReachedEnd := g.mobs.filter (fun m => m.reachedEnd)
  let g1 := { g with
      lives := mobsReachedEnd.foldl (fun l _ => l - 1) g.lives
      mobs := g.mobs.filter (fun m => !m.reachedEnd) }
  let g2 := if g1.lives ≤ 0 then { g1 with state := GameState.gameOver } else g1
  let g3 :=
    match g2.waves.get? g2.currentWave with
    | some w =>
      if w.isComplete = true ∧ g2.mobs = [] ∧ g2.projectiles = [] ∧ w.bonusGiven = false then
        { g2 with
            money := g2.money + (25 + (w.id : ℝ) * 5)
            waves := g2.waves.set g2.currentWave { w with bonusGiven := true } }
      else g2
    | none => g2
  if g3.totalWaves ≤ g3.currentWave ∧ g3.mobs = [] ∧ g3.projectiles = [] then
    { g3 with state := GameState.victory }
  else g3

/-- Steps 1 to 6 of a tick (everything before game-state evaluation):
time and tick counter advance, wave update, mob update, tower update,
projectile update, cleanup. Its result is the state checkGameState sees. -/
noncomputable def preCheck (g : Game) (dt : ℝ) (r : Rng) : Game × Rng :=
  let g1 := { g with time := g.time + dt, tickCount := g.tickCount + 1 }
  let w := updateWaves g1 r
  let g3 := updateMobs w.1 dt
  let tw := updateTowers g3 w.2
  let g5 := updateProjectiles tw.1 dt
  (cleanupEntities g5, tw.2)

/-- advanceTick: the fixed-timestep tick, steps 1 to 6 then game-state
evaluation. -/
noncomputable def advanceTick (g : Game) (dt : ℝ) (r : Rng) : Game × Rng :=
  (checkGameState (preCheck g dt r).1, (preCheck g dt r).2)

/-- towers.find by tile (placeTower's occupancy test). -/
noncomputable def towerAtTile : List Tower → Cell → Option Tower
  | [], _ => none
  | t :: ts, c => if t.tile = c then some t else towerAtTile ts c

/-- placeTower: validate definition, funds, buildability and vacancy, then
append a tier-1 tower with the definition's base stats and debit the base
cost; otherwise return the state unchanged. -/
noncomputable def placeTower (g : Game) (pos : Cell) (towerType : String)
    (r : Rng) : Game × Rng :=
  match towerDefByName towerType with
  | none => (g, r)
  | some td =>
    if g.money < td.baseCost then (g, r)
    else if isBuildable g.map pos = false then (g, r)
    else
      match towerAtTile g.towers pos with
      | some _ => (g, r)
      | none =>
        let tower : Tower :=
          { id := ⟨towerTag, g.time, (r.next).1⟩, tile := pos,
            range := td.baseStats.range, rate := td.baseStats.rate,
            damage := td.baseStats.damage,
            projectileSpeed := td.baseStats.projectileSpeed,
            lastFiredAt := 0, kind := td.kind, tier := 1, cost := td.baseCost,
            targetId := none,
            splashRadius := td.baseStats.splashRadius,
            slowDuration := td.baseStats.slowDuration,
            slowAmount := td.baseStats.slowAmount }
        ({ g with towers := g.towers ++ [tower], money := g.money - td.baseCost }, (r.next).2)

/-! ## Game loop driver (src/state/store.ts) -/

/-- The Zustand store's fields that the update path reads and writes. -/
structure StoreState where
  game : Game
  isRunning : Bool
  lastFrameTime : ℝ
  accumulator : ℝ

/-- The fixed-timestep while loop of store.update: consume the
accumulator one TICK_DURATION at a time. -/
noncomputable def tickLoop (g : Game) (r : Rng) (rem : ℝ) : Game × Rng × ℝ :=
  if h : TICK_DURATION ≤ rem then
    let gr := advanceTick g TICK_DURATION r
    tickLoop gr.1 gr.2 (rem - TICK_DURATION)
  else (g, r, rem)
termination_by (⌈rem / TICK_DURATION⌉).toNat
decreasing_by
  have hT : (0 : ℝ) < TICK_DURATION := by norm_num [TICK_DURATION]
  have h1 : (1 : ℝ) ≤ rem / TICK_DURATION := (one_le_div hT).mpr h
  have h2 : (1 : ℤ) ≤ ⌈rem / TICK_DURATION⌉ := by
    have := Int.le_ceil (rem / TICK_DURATION)
    have : (1 : ℝ) ≤ (⌈rem / TICK_DURATION⌉ : ℝ) := le_trans h1 this
    exact_mod_cast this
  have h3 : (rem - TICK_DURATION) / TICK_DURATION = rem / TICK_DURATION - 1 := by
    rw [sub_div, div_self (ne_of_gt hT)]
  have h4 : ⌈(rem - TICK_DURATION) / TICK_DURATION⌉ = ⌈rem / TICK_DURATION⌉ - 1 := by
    rw [h3, Int.ceil_sub_one]
  rw [h4]
  omega

/-- store.update: refuse unless running and playing; otherwise run the
accumulated whole ticks and keep the remainder. -/
noncomputable def storeUpdate (s : StoreState) (r : Rng) (deltaTime : ℝ) : StoreState × Rng :=
  if s.isRunning = false ∨ s.game.state ≠ GameState.playing then (s, r)
  else
    let newAccumulator := s.accumulator + deltaTime
    let out := tickLoop s.game r newAccumulator
    ({ s with game := out.1, accumulator := out.2.2 }, out.2.1)

/-! ## Example entities for concrete evaluations -/

/-- A baseline mob (the unit-test mob shape: 50 hp, speed 1, no effects). -/
noncomputable def mob0 : Mob :=
  { id := ⟨mobTag, 0, 0⟩, pos := ⟨0, 0⟩, hp := 50, maxHp := 50, speed := 1,
    armor := 0, bounty := 10, kind := .normal, slowUntil := none,
    slowMultiplier := none, pathProgress := 0, isDead := false, reachedEnd := false }

/-! ## Claim C9: the slow stacking rule -/

/--
C9 (amended). For every mob carrying a still-active slow with a present,
nonzero multiplier, applySlow replaces the stored slow exactly when the
new slow is both at least as strong (clamped multiplier at most the
active one) and at least as long (new expiry at or after the active one),
and otherwise returns the mob unchanged; and whenever no slow is active
(no stored expiry, an expiry at or before now, or the stored expiry 0,
which the code's truthiness test treats as absent) the new slow is
applied unconditionally.
-/
theorem C9_applySlow_stacking (mob : Mob) (duration amount now : ℝ) :
    (∀ u μ, mob.slowUntil = some u → u ≠ 0 → now < u →
      mob.slowMultiplier = some μ → μ ≠ 0 →
      ((max 0.1 amount ≤ μ ∧ u ≤ now + duration →
        applySlow mob duration amount now =
          { mob with slowUntil := some (now + duration),
                     slowMultiplier := some (max 0.1 amount) }) ∧
       (¬(max 0.1 amount ≤ μ ∧ u ≤ now + duration) →
        applySlow mob duration amount now = mob))) ∧
    ((∀ u, mob.slowUntil = some u → u = 0 ∨ u ≤ now) →
      applySlow mob duration amount now =
        { mob with slowUntil := some (now + duration),
                   slowMultiplier := some (max 0.1 amount) }) := by
  constructor
  · intro u μ hu hu0 hact hμ hμ0
    have c1 : optTruthy mob.slowUntil ∧ optGT mob.slowUntil now := by
      simp [hu, optTruthy, optGT, hu0, hact]
    constructor
    · intro hrepl
      have c2 : ¬(optTruthy mob.slowMultiplier ∧ optLT mob.slowMultiplier (max 0.1 amount)) := by
        simp only [hμ, optTruthy, optLT, ne_eq]
        rintro ⟨-, hlt⟩
        exact absurd hrepl.1 (not_le_of_lt hlt)
      have c3 : ¬ optGT mob.slowUntil (now + duration) := by
        simp only [hu, optGT]
        have := hrepl.2
        linarith
      unfold applySlow
      rw [if_pos c1, if_neg c2, if_neg c3]
    · intro hnot
      unfold applySlow
      rw [if_pos c1]
      rcases not_and_or.mp hnot with hs | hl
      · have c2 : optTruthy mob.slowMultiplier ∧ optLT mob.slowMultiplier (max 0.1 amount) := by
          refine ⟨by simp [hμ, optTruthy, hμ0], ?_⟩
          simp only [hμ, optLT]
          exact lt_of_not_le hs
        rw [if_pos c2]
      · rcases le_or_lt (max 0.1 amount) μ with hs2 | hs2
        · have c2 : ¬(optTruthy mob.slowMultiplier ∧ optLT mob.slowMultiplier (max 0.1 amount)) := by
            simp only [hμ, optTruthy, optLT, ne_eq]
            rintro ⟨-, hlt⟩
            exact absurd hs2 (not_le_of_lt hlt)
          have c3 : optGT mob.slowUntil (now + duration) := by
            simp only [hu, optGT]
            exact lt_of_not_le hl
          rw [if_neg c2, if_pos c3]
        · have c2 : optTruthy mob.slowMultiplier ∧ optLT mob.slowMultiplier (max 0.1 amount) := by
            refine ⟨by simp [hμ, optTruthy, hμ0], ?_⟩
            simp only [hμ, optLT]
            exact hs2
          rw [if_pos c2]
  · intro hno
    have c1 : ¬(optTruthy mob.slowUntil ∧ optGT mob.slowUntil now) := by
      rcases h : mob.slowUntil with _ | u
      · simp [optTruthy]
      · rcases hno u h with h0 | hle
        · simp [optTruthy, h0]
        · simp only [optTruthy, optGT, ne_eq, not_and]
          intro _
          exact not_lt_of_le hle
    unfold applySlow
    rw [if_neg c1]

/-- Witness for C9: a mob slowed at multiplier one half until time 10,
hit at time 5 by a stronger (0.3) and longer (until 25) slow, has its
slow replaced. -/
theorem C9_witness :
    applySlow { mob0 with slowUntil := some 10, slowMultiplier := some (1/2) } 20 0.3 5 =
      { mob0 with slowUntil := some 25, slowMultiplier := some 0.3 } := by
  have h := ((C9_applySlow_stacking
      { mob0 with slowUntil := some 10, slowMultiplier := some (1/2) } 20 0.3 5).1
    10 (1/2) rfl (by norm_num) (by norm_num) rfl (by norm_num)).1
    ⟨by rw [max_eq_right (by norm_num : (0.1:ℝ) ≤ 0.3)]; norm_num, by norm_num⟩
  rw [h]
  simp only [Mob.mk.injEq]
  norm_num [max_eq_right (by norm_num : (0.1:ℝ) ≤ 0.3)]

/-- Counterexample for C9 as frozen: a mob whose stored multiplier is 0
(JavaScript treats 0 as falsy, so the code skips the strength check)
carries a still-active slow at time 5 expiring at 10; the incoming slow
with clamped multiplier one half is strictly weaker than the stored
multiplier 0, yet applySlow replaces the stored slow instead of keeping
the mob unchanged. -/
theorem C9_counterexample :
    (5:ℝ) < 10 ∧ ¬(max 0.1 (1/2) ≤ (0:ℝ)) ∧
    (applySlow { mob0 with slowUntil := some 10, slowMultiplier := some 0 }
        10 (1/2) 5).slowMultiplier = some (1/2) ∧
    (applySlow { mob0 with slowUntil := some 10, slowMultiplier := some 0 }
        10 (1/2) 5).slowMultiplier ≠ some (0:ℝ) := by
  have hmax : max (0.1:ℝ) (1/2) = 1/2 := max_eq_right (by norm_num)
  have heval : (applySlow { mob0 with slowUntil := some 10, slowMultiplier := some 0 }
      10 (1/2) 5).slowMultiplier = some (1/2) := by
    unfold applySlow
    rw [if_pos (by norm_num [optTruthy, optGT]), if_neg (by simp [optTruthy]),
      if_neg (by norm_num [optGT])]
    simpa using hmax
  refine ⟨by norm_num, by rw [hmax]; norm_num, heval, by rw [heval]; norm_num⟩

/-! ## Claim C10: the minimum-multiplier clamp -/

/--
C10 (amended). applySlow never writes a slow multiplier below 0.1: when
the stored multiplier changes it becomes max 0.1 amount, which is at
least 0.1 (for every amount, including amounts below 0.1 and non-positive
ones); consequently, for a mob whose stored multiplier (if any) is
already at least 0.1, the multiplier after the call is at least 0.1 and
the effective speed computed by updateMobSpeed is at least a tenth of
the base speed.
-/
theorem C10_applySlow_min_multiplier (mob : Mob) (duration amount now : ℝ)
    (hin : ∀ μ, mob.slowMultiplier = some μ → (0.1:ℝ) ≤ μ) :
    ((applySlow mob duration amount now).slowMultiplier ≠ mob.slowMultiplier →
      (applySlow mob duration amount now).slowMultiplier = some (max 0.1 amount) ∧
      (0.1:ℝ) ≤ max 0.1 amount) ∧
    (∀ μ, (applySlow mob duration amount now).slowMultiplier = some μ → (0.1:ℝ) ≤ μ) ∧
    (∀ t, 0 ≤ mob.speed →
      0.1 * mob.speed ≤ updateMobSpeed (applySlow mob duration amount now) t) := by
  have hw : (applySlow mob duration amount now).slowMultiplier = mob.slowMultiplier ∨
      (applySlow mob duration amount now).slowMultiplier = some (max 0.1 amount) := by
    unfold applySlow
    split_ifs <;> simp
  have habove : ∀ μ, (applySlow mob duration amount now).slowMultiplier = some μ →
      (0.1:ℝ) ≤ μ := by
    intro μ hμ
    rcases hw with h | h
    · exact hin μ (h ▸ hμ)
    · rw [h] at hμ
      cases hμ
      exact le_max_left _ _
  have hspeed : (applySlow mob duration amount now).speed = mob.speed := by
    unfold applySlow
    split_ifs <;> rfl
  refine ⟨?_, habove, ?_⟩
  · intro hne
    rcases hw with h | h
    · exact absurd h hne
    · exact ⟨h, le_max_left _ _⟩
  · intro t hsp
    unfold updateMobSpeed
    split_ifs with h1 h2
    · rw [hspeed]
      nlinarith
    · rcases h : (applySlow mob duration amount now).slowMultiplier with _ | μ
      · rw [h] at h2
        exact absurd h2 (by simp [optTruthy])
      · rw [hspeed]
        simp only [Option.getD_some]
        have := habove μ h
        nlinarith
    · rw [hspeed]
      nlinarith

/-- Witness for C10: applying a slow with amount 0.02 (below the clamp)
to an unslowed unit-speed mob stores multiplier max 0.1 0.02 = 0.1, and
the effective speed is at least a tenth of the base speed. -/
theorem C10_witness :
    (applySlow mob0 3 0.02 0).slowMultiplier = some (max 0.1 0.02) ∧
    0.1 * mob0.speed ≤ updateMobSpeed (applySlow mob0 3 0.02 0) 1 := by
  have h := C10_applySlow_min_multiplier mob0 3 0.02 0
    (by intro μ hμ; simp [mob0] at hμ)
  refine ⟨(h.1 ?_).1, h.2.2 1 (by norm_num [mob0])⟩
  unfold applySlow
  rw [if_neg (by simp [mob0, optTruthy])]
  simp [mob0]

/-- Counterexample for C10 as frozen: a mob already carrying a stored
multiplier of one twentieth (below 0.1) keeps it unchanged through an
applySlow call (the incoming slow is weaker, so the stored slow wins), so
the stored multiplier after the call is below 0.1. -/
theorem C10_counterexample :
    (applySlow { mob0 with slowUntil := some 10, slowMultiplier := some (1/20) }
        1 (1/2) 5).slowMultiplier = some (1/20) ∧ ¬((0.1:ℝ) ≤ 1/20) := by
  constructor
  · unfold applySlow
    rw [if_pos (by norm_num [optTruthy, optGT]),
      if_pos (by
        refine ⟨by norm_num [optTruthy], ?_⟩
        simp only [optLT]
        rw [max_eq_right (by norm_num : (0.1:ℝ) ≤ 1/2)]
        norm_num)]
  · norm_num

/-! ## Claim C8: splash damage falloff -/

/--
C8. For a splash impact with radius greater than 0 and base damage b:
every mob of the input list that is alive, has not reached the end and
lies at distance at most the radius from the center is assigned damage
max 1 (floor (b * (1 - (d / r) * 0.5))) in the result, and every entry of
the result is such a mob with exactly that damage (so dead mobs, mobs
past the base and mobs beyond the radius receive nothing). The positive
radius keeps the model inside the regime where the JavaScript division is
an ordinary real division.
-/
theorem C8_applySplashDamage_falloff (center : Vec2) (radius baseDamage : ℝ)
    (mobs : List Mob) (hr : 0 < radius) :
    (∀ m ∈ mobs, m.isDead = false → m.reachedEnd = false →
      distance center m.pos ≤ radius →
      (m, max 1 (jsFloor (baseDamage * (1 - distance center m.pos / radius * 0.5)))) ∈
        applySplashDamage center radius baseDamage mobs) ∧
    (∀ p ∈ applySplashDamage center radius baseDamage mobs,
      p.1 ∈ mobs ∧ p.1.isDead = false ∧ p.1.reachedEnd = false ∧
      distance center p.1.pos ≤ radius ∧
      p.2 = max 1 (jsFloor (baseDamage * (1 - distance center p.1.pos / radius * 0.5)))) := by
  constructor
  · intro m hm hd hre hdist
    induction mobs with
    | nil => cases hm
    | cons a as ih =>
      unfold applySplashDamage
      rcases List.mem_cons.mp hm with heq | hm2
      · subst heq
        rw [if_neg (by simp [hd, hre]), if_pos hdist]
        exact List.mem_cons_self _ _
      · by_cases hdead : a.isDead = true ∨ a.reachedEnd = true
        · rw [if_pos hdead]
          exact ih hm2
        · rw [if_neg hdead]
          by_cases hda : distance center a.pos ≤ radius
          · rw [if_pos hda]
            exact List.mem_cons_of_mem _ (ih hm2)
          · rw [if_neg hda]
            exact ih hm2
  · intro p hp
    induction mobs with
    | nil => simp [applySplashDamage] at hp
    | cons a as ih =>
      unfold applySplashDamage at hp
      by_cases hdead : a.isDead = true ∨ a.reachedEnd = true
      · rw [if_pos hdead] at hp
        obtain ⟨h1, h2, h3, h4, h5⟩ := ih hp
        exact ⟨List.mem_cons_of_mem _ h1, h2, h3, h4, h5⟩
      · rw [if_neg hdead] at hp
        push_neg at hdead
        by_cases hda : distance center a.pos ≤ radius
        · rw [if_pos hda] at hp
          rcases List.mem_cons.mp hp with heq | hp2
          · subst heq
            refine ⟨List.mem_cons_self _ _, ?_, ?_, hda, rfl⟩
            · simpa using hdead.1
            · simpa using hdead.2
          · obtain ⟨h1, h2, h3, h4, h5⟩ := ih hp2
            exact ⟨List.mem_cons_of_mem _ h1, h2, h3, h4, h5⟩
        · rw [if_neg hda] at hp
          obtain ⟨h1, h2, h3, h4, h5⟩ := ih hp
          exact ⟨List.mem_cons_of_mem _ h1, h2, h3, h4, h5⟩

/-- Witness for C8: a live mob exactly on the radius boundary (distance 2
with radius 2) of a base-10 impact takes floor (10 * 0.5) = 5 damage,
half of the base damage. -/
theorem C8_witness :
    (0:ℝ) < 2 ∧
    ({ mob0 with pos := ⟨2, 0⟩ }, (5:ℝ)) ∈
      applySplashDamage ⟨0, 0⟩ 2 10 [{ mob0 with pos := ⟨2, 0⟩ }] := by
  have hd : distance ⟨0, 0⟩ ({ mob0 with pos := ⟨2, 0⟩ } : Mob).pos = 2 := by
    show Real.sqrt (((0:ℝ) - 2) * ((0:ℝ) - 2) + ((0:ℝ) - 0) * ((0:ℝ) - 0)) = 2
    rw [show ((0:ℝ) - 2) * ((0:ℝ) - 2) + ((0:ℝ) - 0) * ((0:ℝ) - 0) = 2 ^ 2 by norm_num]
    exact Real.sqrt_sq (by norm_num)
  have hmem := (C8_applySplashDamage_falloff ⟨0, 0⟩ 2 10
      [{ mob0 with pos := ⟨2, 0⟩ }] (by norm_num)).1
    { mob0 with pos := ⟨2, 0⟩ } (List.mem_cons_self _ _) rfl rfl (le_of_eq hd)
  rw [hd] at hmem
  refine ⟨by norm_num, ?_⟩
  have hval : max (1:ℝ) (jsFloor (10 * (1 - 2 / 2 * 0.5))) = 5 := by
    rw [show (10:ℝ) * (1 - 2 / 2 * 0.5) = 5 by norm_num]
    rw [show jsFloor 5 = 5 by rw [jsFloor]; norm_num]
    norm_num
  rwa [hval] at hmem

/-! ## Claim C7: target selection with strategy first -/

/-- Full behavior of the findFirstTarget scan: either no list element
beats the running best progress and the accumulator survives, or the
result is the first list element attaining the maximum progress. -/
theorem firstScan_full (ms : List Mob) (b : Option Mob) (bp : ℝ) :
    ((∀ m ∈ ms, m.pathProgress ≤ bp) ∧ firstScan ms (b, bp) = (b, bp)) ∨
    (∃ i m, ms.get? i = some m ∧
      firstScan ms (b, bp) = (some m, m.pathProgress) ∧
      bp < m.pathProgress ∧
      (∀ j mj, ms.get? j = some mj → mj.pathProgress ≤ m.pathProgress) ∧
      (∀ j, j < i → ∀ mj, ms.get? j = some mj → mj.pathProgress < m.pathProgress)) := by
  induction ms generalizing b bp with
  | nil => exact Or.inl ⟨by simp, rfl⟩
  | cons a as ih =>
    by_cases ha : bp < a.pathProgress
    · have hstep : firstScan (a :: as) (b, bp) = firstScan as (some a, a.pathProgress) := by
        simp only [firstScan]
        rw [if_pos ha]
      rcases ih (some a) a.pathProgress with ⟨hall, heq⟩ | ⟨i, m, hget, heq, hlt, hmax, hfirst⟩
      · refine Or.inr ⟨0, a, rfl, ?_, ha, ?_, ?_⟩
        · rw [hstep, heq]
        · intro j mj hj
          cases j with
          | zero => cases hj; exact le_refl _
          | succ j2 => exact hall mj (List.get?_mem hj)
        · intro j hj
          omega
      · refine Or.inr ⟨i + 1, m, hget, ?_, lt_trans ha hlt, ?_, ?_⟩
        · rw [hstep, heq]
        · intro j mj hj
          cases j with
          | zero => cases hj; exact le_of_lt hlt
          | succ j2 => exact hmax j2 mj hj
        · intro j hj mj hjget
          cases j with
          | zero => cases hjget; exact hlt
          | succ j2 =>
            exact hfirst j2 (by omega) mj hjget
    · have hstep : firstScan (a :: as) (b, bp) = firstScan as (b, bp) := by
        simp only [firstScan]
        rw [if_neg ha]
      push_neg at ha
      rcases ih b bp with ⟨hall, heq⟩ | ⟨i, m, hget, heq, hlt, hmax, hfirst⟩
      · refine Or.inl ⟨?_, by rw [hstep, heq]⟩
        intro m hm
        rcases List.mem_cons.mp hm with rfl | hm2
        · exact ha
        · exact hall m hm2
      · refine Or.inr ⟨i + 1, m, hget, by rw [hstep, heq], hlt, ?_, ?_⟩
        · intro j mj hj
          cases j with
          | zero => cases hj; exact le_of_lt (lt_of_le_of_lt ha hlt)
          | succ j2 => exact hmax j2 mj hj
        · intro j hj mj hjget
          cases j with
          | zero => cases hjget; exact lt_of_le_of_lt ha hlt
          | succ j2 => exact hfirst j2 (by omega) mj hjget

/-- Membership characterization of the findTarget range filter. -/
theorem inRangeMobs_mem (tower : Tower) (mobs : List Mob) (m : Mob) :
    m ∈ inRangeMobs tower mobs ↔
      m ∈ mobs ∧ m.isDead = false ∧ m.reachedEnd = false ∧
        distance (cellVec tower.tile) m.pos ≤ tower.range := by
  induction mobs with
  | nil => simp [inRangeMobs]
  | cons a as ih =>
    unfold inRangeMobs
    by_cases hc : a.isDead = false ∧ a.reachedEnd = false ∧
        distance (cellVec tower.tile) a.pos ≤ tower.range
    · rw [if_pos hc]
      constructor
      · intro hm
        rcases List.mem_cons.mp hm with rfl | hm2
        · exact ⟨List.mem_cons_self _ _, hc⟩
        · obtain ⟨h1, h2⟩ := ih.mp hm2
          exact ⟨List.mem_cons_of_mem _ h1, h2⟩
      · rintro ⟨hm, hrest⟩
        rcases List.mem_cons.mp hm with rfl | hm2
        · exact List.mem_cons_self _ _
        · exact List.mem_cons_of_mem _ (ih.mpr ⟨hm2, hrest⟩)
    · rw [if_neg hc]
      constructor
      · intro hm
        obtain ⟨h1, h2⟩ := ih.mp hm
        exact ⟨List.mem_cons_of_mem _ h1, h2⟩
      · rintro ⟨hm, hrest⟩
        rcases List.mem_cons.mp hm with rfl | hm2
        · exact absurd hrest hc
        · exact ih.mpr ⟨hm2, hrest⟩

/--
C7. findTarget considers exactly the mobs that are alive, not past the
base and within Euclidean range of the tower's tile; it returns no
target exactly when that candidate list is empty (given the data model's
invariant that path progress is non-negative); and with strategy first
any returned mob is a candidate of maximum pathProgress, the first one
in scan order among equals.
-/
theorem C7_findTarget_first (tower : Tower) (mobs : List Mob)
    (hwf : ∀ m ∈ mobs, 0 ≤ m.pathProgress) :
    (∀ m, m ∈ inRangeMobs tower mobs ↔
      m ∈ mobs ∧ m.isDead = false ∧ m.reachedEnd = false ∧
        distance (cellVec tower.tile) m.pos ≤ tower.range) ∧
    (findTarget tower mobs .first = none ↔ inRangeMobs tower mobs = []) ∧
    (∀ m, findTarget tower mobs .first = some m →
      m ∈ inRangeMobs tower mobs ∧
      (∀ m2 ∈ inRangeMobs tower mobs, m2.pathProgress ≤ m.pathProgress) ∧
      (∃ i, (inRangeMobs tower mobs).get? i = some m ∧
        ∀ j, j < i → ∀ mj, (inRangeMobs tower mobs).get? j = some mj →
          mj.pathProgress < m.pathProgress)) := by
  refine ⟨fun m => inRangeMobs_mem tower mobs m, ?_, ?_⟩
  · constructor
    · intro hnone
      by_cases hlen : (inRangeMobs tower mobs).length = 0
      · exact List.length_eq_zero.mp hlen
      · exfalso
        unfold findTarget at hnone
        rw [if_neg hlen] at hnone
        rcases firstScan_full (inRangeMobs tower mobs) none (-1) with
          ⟨hall, heq⟩ | ⟨i, m, hget, heq, hlt, hmax, hfirst⟩
        · rcases List.exists_mem_of_length_pos (Nat.pos_of_ne_zero hlen) with ⟨m, hm⟩
          have h0 := hwf m ((inRangeMobs_mem tower mobs m).mp hm).1
          have := hall m hm
          linarith
        · rw [findFirstTarget, heq] at hnone
          cases hnone
    · intro hempty
      unfold findTarget
      rw [if_pos (by rw [hempty]; rfl)]
  · intro m hsome
    have hne : ¬ (inRangeMobs tower mobs).length = 0 := by
      intro hlen
      unfold findTarget at hsome
      rw [if_pos hlen] at hsome
      cases hsome
    unfold findTarget at hsome
    rw [if_neg hne] at hsome
    rcases firstScan_full (inRangeMobs tower mobs) none (-1) with
      ⟨hall, heq⟩ | ⟨i, m2, hget, heq, hlt, hmax, hfirst⟩
    · rw [findFirstTarget, heq] at hsome
      cases hsome
    · rw [findFirstTarget, heq] at hsome
      cases hsome
      exact ⟨List.get?_mem hget,
        fun mb hmb => by
          rcases List.get?_of_mem hmb with ⟨j, hj⟩
          exact hmax j mb hj,
        ⟨i, hget, hfirst⟩⟩

/-- The unit-test arrow tower at tile (5,5) with range 3. -/
noncomputable def towerA : Tower :=
  { id := ⟨towerTag, 0, 0⟩, tile := ⟨5, 5⟩, range := 3, rate := 1, damage := 25,
    projectileSpeed := none, lastFiredAt := 0, kind := .arrow, tier := 1,
    cost := 50, targetId := none, splashRadius := none, slowDuration := none,
    slowAmount := none }

/-- An in-range mob at (6,6) with path progress 0.5. -/
noncomputable def mobA : Mob := { mob0 with pos := ⟨6, 6⟩, pathProgress := 0.5 }

/-- An out-of-range mob at (10,10) with path progress 0.3. -/
noncomputable def mobB : Mob := { mob0 with pos := ⟨10, 10⟩, pathProgress := 0.3 }

/-- Witness for C7: on the unit test's configuration (tower at (5,5) with
range 3, candidates at progress 0.5 in range and 0.3 out of range),
findTarget with strategy first returns the mob at progress 0.5, and by
the theorem every candidate's progress is at most the returned one's. -/
theorem C7_witness :
    findTarget towerA [mobA, mobB] .first = some mobA ∧
    mobA.pathProgress = 0.5 ∧ mobB.pathProgress = 0.3 ∧
    (∀ m2 ∈ inRangeMobs towerA [mobA, mobB], m2.pathProgress ≤ mobA.pathProgress) := by
  have hdA : distance (cellVec towerA.tile) mobA.pos ≤ towerA.range := by
    show Real.sqrt (((5:ℝ) - 6) * ((5:ℝ) - 6) + ((5:ℝ) - 6) * ((5:ℝ) - 6)) ≤ 3
    rw [show ((5:ℝ) - 6) * ((5:ℝ) - 6) + ((5:ℝ) - 6) * ((5:ℝ) - 6) = 2 by norm_num]
    calc Real.sqrt 2 ≤ Real.sqrt (3 ^ 2) := Real.sqrt_le_sqrt (by norm_num)
      _ = 3 := Real.sqrt_sq (by norm_num)
  have hdB : ¬ distance (cellVec towerA.tile) mobB.pos ≤ towerA.range := by
    show ¬ Real.sqrt (((5:ℝ) - 10) * ((5:ℝ) - 10) + ((5:ℝ) - 10) * ((5:ℝ) - 10)) ≤ 3
    rw [show ((5:ℝ) - 10) * ((5:ℝ) - 10) + ((5:ℝ) - 10) * ((5:ℝ) - 10) = 50 by norm_num]
    rw [not_le]
    calc (3:ℝ) = Real.sqrt (3 ^ 2) := (Real.sqrt_sq (by norm_num)).symm
      _ < Real.sqrt 50 := Real.sqrt_lt_sqrt (by norm_num) (by norm_num)
  have hrange : inRangeMobs towerA [mobA, mobB] = [mobA] := by
    simp only [inRangeMobs]
    rw [if_pos ⟨rfl, rfl, hdA⟩, if_neg (fun hc => hdB hc.2.2)]
  have heval : findTarget towerA [mobA, mobB] .first = some mobA := by
    unfold findTarget
    rw [hrange]
    rw [if_neg (by norm_num)]
    show findFirstTarget [mobA] = some mobA
    unfold findFirstTarget
    simp only [firstScan]
    rw [if_pos (by show (-1:ℝ) < mobA.pathProgress; norm_num [mobA, mob0])]
  refine ⟨heval, rfl, rfl, ?_⟩
  intro m2 hm2
  exact ((C7_findTarget_first towerA [mobA, mobB] (by
      intro m hm
      rcases List.mem_cons.mp hm with rfl | hm2
      · norm_num [mobA, mob0]
      · rcases List.mem_cons.mp hm2 with rfl | hm3
        · norm_num [mobB, mob0]
        · cases hm3)).2.2 mobA heval).2.1 m2 hm2

/-! ## Claim C3: tower placement -/

/-- The occupancy scan finds no tower exactly when no tower sits on the
tile. -/
theorem towerAtTile_none_iff (ts : List Tower) (pos : Cell) :
    towerAtTile ts pos = none ↔ ∀ t ∈ ts, t.tile ≠ pos := by
  induction ts with
  | nil => simp [towerAtTile]
  | cons a as ih =>
    unfold towerAtTile
    by_cases ha : a.tile = pos
    · rw [if_pos ha]
      constructor
      · intro h
        cases h
      · intro hall
        exact absurd ha (hall a (List.mem_cons_self _ _))
    · rw [if_neg ha]
      rw [ih]
      constructor
      · intro hall t ht
        rcases List.mem_cons.mp ht with rfl | ht2
        · exact ha
        · exact hall t ht2
      · intro hall t ht
        exact hall t (List.mem_cons_of_mem _ ht)

/--
C3. placeTower with a known tower type, sufficient funds, a buildable
target tile and no tower on that tile appends exactly one tier-1 tower at
the requested tile with the stats copied from the type definition and
debits exactly the base cost; under any other condition (unknown type,
insufficient funds, unbuildable tile, occupied tile) the returned game is
the input game, so towers and money are unchanged; the operation is a
total function (it never raises).
-/
theorem C3_placeTower_spec (g : Game) (pos : Cell) (towerType : String) (r : Rng) :
    (towerAtTile g.towers pos = none ↔ ∀ t ∈ g.towers, t.tile ≠ pos) ∧
    (∀ td, towerDefByName towerType = some td →
      td.baseCost ≤ g.money → isBuildable g.map pos = true →
      towerAtTile g.towers pos = none →
      (placeTower g pos towerType r).1.towers =
        g.towers ++ [{
          id := ⟨towerTag, g.time, r 0⟩
          tile := pos
          range := td.baseStats.range
          rate := td.baseStats.rate
          damage := td.baseStats.damage
          projectileSpeed := td.baseStats.projectileSpeed
          lastFiredAt := 0
          kind := td.kind
          tier := 1
          cost := td.baseCost
          targetId := none
          splashRadius := td.baseStats.splashRadius
          slowDuration := td.baseStats.slowDuration
          slowAmount := td.baseStats.slowAmount }] ∧
      (placeTower g pos towerType r).1.money = g.money - td.baseCost) ∧
    ((towerDefByName towerType = none ∨
      (∃ td, towerDefByName towerType = some td ∧ g.money < td.baseCost) ∨
      isBuildable g.map pos = false ∨
      (∃ t, towerAtTile g.towers pos = some t)) →
      (placeTower g pos towerType r).1 = g) := by
  refine ⟨towerAtTile_none_iff g.towers pos, ?_, ?_⟩
  · intro td hdef hmoney hbuild hocc
    simp only [placeTower, hdef]
    rw [if_neg (not_lt.mpr hmoney), if_neg (by rw [hbuild]; simp)]
    simp only [hocc, Rng.next]
    refine ⟨?_, ?_⟩ <;> trivial
  · intro hbad
    rcases hdef : towerDefByName towerType with _ | td
    · simp only [placeTower, hdef]
    · simp only [placeTower, hdef]
      by_cases hm : g.money < td.baseCost
      · rw [if_pos hm]
      · rw [if_neg hm]
        by_cases hb : isBuildable g.map pos = false
        · rw [if_pos hb]
        · rw [if_neg hb]
          rcases hocc : towerAtTile g.towers pos with _ | t
          · exfalso
            rcases hbad with h1 | ⟨td2, h2, h3⟩ | h4 | ⟨t, h5⟩
            · rw [hdef] at h1
              cases h1
            · rw [hdef] at h2
              cases h2
              exact hm h3
            · exact hb h4
            · rw [hocc] at h5
              cases h5
          · simp only [hocc]

/-- A one-tile map whose only covered cell (0,0) is buildable. -/
def mapP : GameMap :=
  { width := 20, height := 15, tiles := [[TileType.buildable]], paths := [],
    spawnPoints := [⟨0, 0⟩], basePosition := ⟨0, 0⟩ }

/-- A concrete playing game with 200 money and no towers on mapP. -/
noncomputable def gameP : Game :=
  { time := 0, state := .playing, speed := 1, mobs := [], towers := [],
    projectiles := [], waves := [], currentWave := 0, totalWaves := 0,
    money := 200, lives := 100, score := 0, map := mapP,
    selectedTower := none, hoveredTile := none, buildMode := none,
    lastTickTime := 0, frameTime := 0, tickCount := 0 }

/-- Witness for C3: placing an arrow tower (base cost 20) at the
buildable tile (0,0) of gameP with 200 money appends exactly one tier-1
tower at that tile and leaves 180 money. -/
theorem C3_witness :
    (placeTower gameP ⟨0, 0⟩ arrowName (fun _ => 0)).1.money = 200 - 20 ∧
    (placeTower gameP ⟨0, 0⟩ arrowName (fun _ => 0)).1.towers.length = 1 ∧
    ∀ t ∈ (placeTower gameP ⟨0, 0⟩ arrowName (fun _ => 0)).1.towers,
      t.tile = (⟨0, 0⟩ : Cell) ∧ t.tier = 1 := by
  have hdef : towerDefByName arrowName = some (towerDefOf .arrow) := by
    unfold towerDefByName
    rw [if_pos rfl]
  have h := ((C3_placeTower_spec gameP ⟨0, 0⟩ arrowName (fun _ => 0)).2.1
    (towerDefOf .arrow) hdef (by norm_num [towerDefOf, gameP])
    (by decide) rfl)
  refine ⟨?_, ?_, ?_⟩
  · rw [h.2]
    norm_num [gameP, towerDefOf]
  · rw [h.1]
    rfl
  · intro t ht
    rw [h.1] at ht
    rcases List.mem_cons.mp ht with rfl | ht2
    · exact ⟨rfl, rfl⟩
    · cases ht2

/-! ## Frame lemmas: no stage of the tick touches time or tickCount -/

/-- Folding a time-and-tick-preserving step preserves time and tick. -/
theorem foldl_time_tick {α : Type} (f : Game → α → Game)
    (h : ∀ g a, (f g a).time = g.time ∧ (f g a).tickCount = g.tickCount) :
    ∀ (l : List α) (g : Game),
      (l.foldl f g).time = g.time ∧ (l.foldl f g).tickCount = g.tickCount := by
  intro l
  induction l with
  | nil => intro g; exact ⟨rfl, rfl⟩
  | cons a as ih =>
    intro g
    rw [List.foldl_cons]
    exact ⟨(ih (f g a)).1.trans (h g a).1, (ih (f g a)).2.trans (h g a).2⟩

/-- updateWaves changes neither time nor tickCount. -/
theorem updateWaves_frame (g : Game) (r : Rng) :
    (updateWaves g r).1.time = g.time ∧ (updateWaves g r).1.tickCount = g.tickCount := by
  simp only [updateWaves]
  repeat' split
  all_goals exact ⟨rfl, rfl⟩

/-- applyProjectileHit changes neither time nor tickCount. -/
theorem applyProjectileHit_frame (g : Game) (p : Projectile) (target : Mob) (tower : Tower) :
    (applyProjectileHit g p target tower).time = g.time ∧
    (applyProjectileHit g p target tower).tickCount = g.tickCount := by
  simp only [applyProjectileHit]
  by_cases hs : optTruthy p.splashRadius
  · rw [if_pos hs]
    apply foldl_time_tick
    intro g2 a
    repeat' split
    all_goals exact ⟨rfl, rfl⟩
  · rw [if_neg hs]
    repeat' split
    all_goals exact ⟨rfl, rfl⟩

/-- The projectile loop changes neither time nor tickCount. -/
theorem projStep_frame (dt : ℝ) (ps : List Projectile) (g : Game) :
    (projStep dt ps g).2.time = g.time ∧ (projStep dt ps g).2.tickCount = g.tickCount := by
  induction ps with
  | nil => exact ⟨rfl, rfl⟩
  | cons p rest ih =>
    simp only [projStep]
    repeat' split
    all_goals
      first
      | exact ih
      | exact ⟨(applyProjectileHit_frame _ _ _ _).1.trans ih.1,
          (applyProjectileHit_frame _ _ _ _).2.trans ih.2⟩

/-- checkGameState changes neither time nor tickCount. -/
theorem checkGameState_frame (g : Game) :
    (checkGameState g).time = g.time ∧ (checkGameState g).tickCount = g.tickCount := by
  simp only [checkGameState]
  repeat' split
  all_goals exact ⟨rfl, rfl⟩

/-- Steps 1 to 6 advance time by dt and the tick counter by one. -/
theorem preCheck_time_tick (g : Game) (dt : ℝ) (r : Rng) :
    (preCheck g dt r).1.time = g.time + dt ∧
    (preCheck g dt r).1.tickCount = g.tickCount + 1 := by
  set g1 : Game := { g with time := g.time + dt, tickCount := g.tickCount + 1 } with hg1
  have hgoal : (preCheck g dt r).1 =
      cleanupEntities (updateProjectiles
        (updateTowers (updateMobs (updateWaves g1 r).1 dt) (updateWaves g1 r).2).1 dt) := rfl
  rw [hgoal]
  have hw := updateWaves_frame g1 r
  have hp := projStep_frame dt
    (updateTowers (updateMobs (updateWaves g1 r).1 dt) (updateWaves g1 r).2).1.projectiles
    (updateTowers (updateMobs (updateWaves g1 r).1 dt) (updateWaves g1 r).2).1
  constructor
  · calc (cleanupEntities (updateProjectiles
        (updateTowers (updateMobs (updateWaves g1 r).1 dt) (updateWaves g1 r).2).1 dt)).time
        = (updateTowers (updateMobs (updateWaves g1 r).1 dt) (updateWaves g1 r).2).1.time :=
          hp.1
      _ = g1.time := hw.1
      _ = g.time + dt := by rw [hg1]
  · calc (cleanupEntities (updateProjectiles
        (updateTowers (updateMobs (updateWaves g1 r).1 dt) (updateWaves g1 r).2).1 dt)).tickCount
        = (updateTowers (updateMobs (updateWaves g1 r).1 dt) (updateWaves g1 r).2).1.tickCount :=
          hp.2
      _ = g1.tickCount := hw.2
      _ = g.tickCount + 1 := by rw [hg1]

/-! ## Claim C1: tick determinism and time advance -/

/--
C1 (amended). advanceTick is a function of the input state, dt and the
stream of Math.random draws: two calls on identical input states with
identical draws produce identical outputs, and every call advances time
by exactly dt and the tick counter by exactly one. (Identical input
states alone do not suffice: freshly spawned entities embed ambient
Math.random draws in their ids, see the counterexample.)
-/
theorem C1_advanceTick_step (g : Game) (dt : ℝ) (r r2 : Rng) (hr : ∀ n, r n = r2 n) :
    advanceTick g dt r = advanceTick g dt r2 ∧
    (advanceTick g dt r).1.time = g.time + dt ∧
    (advanceTick g dt r).1.tickCount = g.tickCount + 1 := by
  have hc := checkGameState_frame (preCheck g dt r).1
  have hp := preCheck_time_tick g dt r
  refine ⟨by rw [show r = r2 from funext hr], hc.1.trans hp.1, hc.2.trans hp.2⟩

/-- Witness for C1: a tick of the concrete game gameP advances time from
0 to 0 + 1 and the tick counter from 0 to 0 + 1. -/
theorem C1_witness :
    (advanceTick gameP 1 (fun _ => 0)).1.time = 0 + 1 ∧
    (advanceTick gameP 1 (fun _ => 0)).1.tickCount = 0 + 1 := by
  have h := C1_advanceTick_step gameP 1 (fun _ => 0) (fun _ => 0) (fun _ => rfl)
  exact ⟨h.2.1, h.2.2⟩

/-- A map whose only covered tile is a path cell, with one spawn point
and no precomputed paths. -/
def mapW : GameMap :=
  { width := 20, height := 15, tiles := [[TileType.path]], paths := [],
    spawnPoints := [⟨0, 0⟩], basePosition := ⟨0, 0⟩ }

/-- A not-yet-active wave whose single entry has a five-second delay. -/
noncomputable def waveW : Wave :=
  { id := 1, entries := [⟨5, .normal, 1, 1⟩], isActive := false,
    isComplete := false, startTime := none, nextSpawnTime := none,
    currentEntryIndex := 0, currentSpawnCount := 0, bonusGiven := false }

/-- A playing game at simulation time 100 about to start waveW. -/
noncomputable def gameW : Game :=
  { time := 100, state := .playing, speed := 1, mobs := [], towers := [],
    projectiles := [], waves := [waveW], currentWave := 0, totalWaves := 1,
    money := 0, lives := 10, score := 0, map := mapW, selectedTower := none,
    hoveredTile := none, buildMode := none, lastTickTime := 0, frameTime := 0,
    tickCount := 0 }

/-- Full evaluation of one tick of gameW: the wave activates with start
time 101 and immediately spawns a mob (the entry's five-second delay is
compared against absolute time 101, not against time since wave start);
the spawned mob's id embeds the first Math.random draw. -/
theorem gameW_eval (r : Rng) :
    (advanceTick gameW 1 r).1 =
      { gameW with
          time := 101
          tickCount := 1
          mobs := [{
            id := ⟨mobTag, 101, r 0⟩
            pos := gridToWorld 0 0
            hp := 50
            maxHp := 50
            speed := 1
            armor := 0
            bounty := 10
            kind := .normal
            slowUntil := none
            slowMultiplier := none
            pathProgress := 0
            isDead := false
            reachedEnd := false }]
          waves := [{ waveW with
            isActive := true
            startTime := some 101
            nextSpawnTime := some 102
            currentSpawnCount := 1 }] } := by
  norm_num [advanceTick, preCheck, updateWaves, updateMobs, updateTowers, towersStep,
    updateProjectiles, projStep, cleanupEntities, pruneOldProjectiles, checkGameState,
    createMob, mobDefOf, moveMob, cleanupExpiredEffects, gameW, waveW, mapW,
    optTruthy, optGE, Rng.next, mobTag, gridToWorld, List.set, List.getD]

/-- Counterexample for C1 as frozen: two advanceTick calls on the
identical input state gameW, differing only in the ambient Math.random
draws (0 versus 1), produce different output states, because the spawned
mob's id embeds the draw. -/
theorem C1_counterexample :
    (advanceTick gameW 1 (fun _ => 0)).1 ≠ (advanceTick gameW 1 (fun _ => 1)).1 := by
  rw [gameW_eval, gameW_eval]
  intro h
  have hm := congrArg Game.mobs h
  norm_num [List.cons.injEq, Mob.mk.injEq, EntityId.mk.injEq] at hm

/-! ## Claim C4: spawn delays are measured from absolute time -/

/--
C4. The code is wrong and the claim (backed by the Wave type's own
documentation, "delay: seconds from wave start") is right: updateWaves
tests the entry delay against absolute simulation time. At the concrete
failing input gameW (a wave with a five-second entry delay becoming
active at absolute time 101), the tick that records startTime 101 also
spawns the entry's mob at time 101, strictly before the delay measured
from the recorded wave start (101 + 5) has elapsed.
-/
theorem C4_spawn_ignores_wave_start :
    ((advanceTick gameW 1 (fun _ => 0)).1.waves.get? 0).map Wave.startTime =
      some (some 101) ∧
    ((advanceTick gameW 1 (fun _ => 0)).1.waves.get? 0).map Wave.entries =
      some [⟨5, .normal, 1, 1⟩] ∧
    (advanceTick gameW 1 (fun _ => 0)).1.mobs.length = 1 ∧
    (advanceTick gameW 1 (fun _ => 0)).1.time = 101 ∧
    (101:ℝ) < 101 + 5 := by
  rw [gameW_eval]
  refine ⟨rfl, by simp [waveW], rfl, rfl, by norm_num⟩

/-! ## Claim C6: lives and reached-end mobs at game-state evaluation -/

/-- Decrementing once per list element is subtracting the length. -/
theorem foldl_sub_one (l : List Mob) (x : ℝ) :
    l.foldl (fun a _ => a - 1) x = x - l.length := by
  induction l generalizing x with
  | nil => simp
  | cons a as ih =>
    rw [List.foldl_cons, ih, List.length_cons]
    push_cast
    ring

/--
C6. advanceTick ends with checkGameState applied to the state produced by
steps 1 to 6 (preCheck); there, lives decrease by exactly the number of
mobs whose reachedEnd flag is set at that point, and the returned mob
list keeps exactly the non-reached mobs, so it contains no reached-end
mob.
-/
theorem C6_lives_reached (g : Game) (dt : ℝ) (r : Rng) :
    (advanceTick g dt r).1 = checkGameState (preCheck g dt r).1 ∧
    (advanceTick g dt r).1.lives =
      (preCheck g dt r).1.lives -
        (((preCheck g dt r).1.mobs.filter (fun m => m.reachedEnd)).length : ℝ) ∧
    (advanceTick g dt r).1.mobs =
      (preCheck g dt r).1.mobs.filter (fun m => !m.reachedEnd) ∧
    ∀ m ∈ (advanceTick g dt r).1.mobs, m.reachedEnd = false := by
  have hmobs : ∀ X : Game, (checkGameState X).mobs = X.mobs.filter (fun m => !m.reachedEnd) := by
    intro X
    simp only [checkGameState]
    repeat' split
    all_goals rfl
  have hlives : ∀ X : Game, (checkGameState X).lives =
      X.lives - ((X.mobs.filter (fun m => m.reachedEnd)).length : ℝ) := by
    intro X
    simp only [checkGameState]
    repeat' split
    all_goals exact foldl_sub_one _ _
  refine ⟨rfl, hlives _, hmobs _, ?_⟩
  intro m hm
  rw [show (advanceTick g dt r).1 = checkGameState (preCheck g dt r).1 from rfl,
    hmobs _] at hm
  have := (List.mem_filter.mp hm).2
  simpa using this

/-! ## Claim C2: terminal states and tick advancement -/

/--
C2 (amended). advanceTick itself never refuses to advance: even in the
terminal states it advances time and the tick counter (see the
counterexample). The guard lives in the driver: store.update returns the
store unchanged whenever the game state is not playing, in particular in
gameOver and victory, so once a terminal state is reached the game loop
performs no further tick advancement.
-/
theorem C2_terminal_no_tick (s : StoreState) (r : Rng) (dt : ℝ)
    (hterm : s.game.state = GameState.gameOver ∨ s.game.state = GameState.victory) :
    storeUpdate s r dt = (s, r) := by
  unfold storeUpdate
  rw [if_pos]
  right
  rcases hterm with h | h <;> · rw [h]; intro hc; simp at hc

/-- A terminal (victory) concrete game. -/
noncomputable def gameV : Game := { gameP with state := GameState.victory }

/-- A running store holding the terminal game gameV. -/
noncomputable def storeV : StoreState :=
  { game := gameV, isRunning := true, lastFrameTime := 0, accumulator := 0 }

/-- Witness for C2: updating the store that holds the terminal game
leaves it untouched. -/
theorem C2_witness :
    gameV.state = GameState.victory ∧
    storeUpdate storeV (fun _ => 0) 100 = (storeV, (fun _ => 0)) := by
  refine ⟨rfl, C2_terminal_no_tick storeV (fun _ => 0) 100 (Or.inr rfl)⟩

/-- Counterexample for C2 as frozen: advanceTick applied to the terminal
game gameV does not return it unchanged; the returned game's time has
advanced by dt. -/
theorem C2_counterexample :
    gameV.state = GameState.victory ∧
    (advanceTick gameV 1 (fun _ => 0)).1 ≠ gameV := by
  refine ⟨rfl, fun h => ?_⟩
  have htime := congrArg Game.time h
  have h2 := (checkGameState_frame (preCheck gameV 1 (fun _ => 0)).1).1.trans
    (preCheck_time_tick gameV 1 (fun _ => 0)).1
  rw [show (advanceTick gameV 1 (fun _ => 0)).1 =
    checkGameState (preCheck gameV 1 (fun _ => 0)).1 from rfl, h2] at htime
  norm_num [gameV, gameP] at htime

/-! ## Claim C5: A-star pathfinding

The correctness development for Pathfinder.findPath: definitions of
walkable paths, the search invariant, the cover lemma (every quasi-path
to an unclosed cell is tracked by an open node of no larger f), the
popped-node optimality that follows from it, invariant maintenance for
one loop iteration, and the main induction.
-/

/-- Two cells are 4-adjacent. -/
def Adj (a b : Cell) : Prop :=
  (a.x - b.x).natAbs + (a.y - b.y).natAbs = 1

/-- Manhattan distance moves by at most one per 4-adjacent step. -/
theorem heuristic_adj (a b e : Cell) (h : Adj a b) :
    heuristic a e ≤ heuristic b e + 1 := by
  unfold Adj at h
  unfold heuristic
  omega

/-- Members of getNeighbors are valid 4-neighbors. -/
theorem getNeighbors_mem_adj (c w : Cell) (h : w ∈ getNeighbors c) :
    Adj c w ∧ isValidVec w = true := by
  unfold getNeighbors at h
  rw [List.mem_filter] at h
  obtain ⟨hmem, hvalid⟩ := h
  refine ⟨?_, hvalid⟩
  unfold Adj
  rcases c with ⟨cx, cy⟩
  rcases w with ⟨wx, wy⟩
  simp only [List.mem_cons, List.mem_singleton, Cell.mk.injEq, List.not_mem_nil] at hmem
  rcases hmem with ⟨h1, h2⟩ | ⟨h1, h2⟩ | ⟨h1, h2⟩ | ⟨h1, h2⟩ | hf
  · subst h1; subst h2; dsimp only []; omega
  · subst h1; subst h2; dsimp only []; omega
  · subst h1; subst h2; dsimp only []; omega
  · subst h1; subst h2; dsimp only []; omega
  · exact hf.elim

/-- Every valid 4-neighbor is listed by getNeighbors. -/
theorem adj_valid_mem_getNeighbors (c w : Cell) (hadj : Adj c w)
    (hv : isValidVec w = true) : w ∈ getNeighbors c := by
  unfold getNeighbors
  rw [List.mem_filter]
  refine ⟨?_, hv⟩
  unfold Adj at hadj
  rcases c with ⟨cx, cy⟩
  rcases w with ⟨wx, wy⟩
  simp only [List.mem_cons, List.mem_singleton, Cell.mk.injEq, List.not_mem_nil]
  simp only [Int.natAbs_eq_iff] at hadj
  omega

/-- Walkable cells are valid. -/
theorem walkable_valid (m : GameMap) (c : Cell) (h : isWalkable m c = true) :
    isValidVec c = true := by
  unfold isWalkable at h
  exact (Bool.and_eq_true _ _ |>.mp h).1

/-- A quasi-path from s to z: starts at s, ends at z, 4-connected, and
every cell after the first is walkable (the search never checks the
start cell's walkability). -/
def QL (m : GameMap) (s z : Cell) (p : List Cell) : Prop :=
  p.head? = some s ∧ p.getLast? = some z ∧ p.Chain' Adj ∧
  ∀ c ∈ p.tail, isWalkable m c = true

/-- A walkable path in the claim's sense: a quasi-path whose every cell,
including the first, is walkable. -/
def WalkPath (m : GameMap) (s z : Cell) (p : List Cell) : Prop :=
  p.head? = some s ∧ p.getLast? = some z ∧ p.Chain' Adj ∧
  ∀ c ∈ p, isWalkable m c = true

/-- A walkable path is a quasi-path. -/
theorem WalkPath.toQL {m : GameMap} {s z : Cell} {p : List Cell}
    (h : WalkPath m s z p) : QL m s z p :=
  ⟨h.1, h.2.1, h.2.2.1, fun c hc => h.2.2.2 c (List.mem_of_mem_tail hc)⟩

/-- A quasi-path with a walkable start is a walkable path. -/
theorem QL.toWalkPath {m : GameMap} {s z : Cell} {p : List Cell}
    (h : QL m s z p) (hs : isWalkable m s = true) : WalkPath m s z p := by
  refine ⟨h.1, h.2.1, h.2.2.1, ?_⟩
  intro c hc
  rcases p with _ | ⟨a, q⟩
  · cases hc
  · rcases List.mem_cons.mp hc with heq | hc2
    · rw [heq]
      have ha : a = s := by simpa using h.1
      rw [ha]
      exact hs
    · exact h.2.2.2 c hc2

/-- Quasi-paths are nonempty. -/
theorem QL.length_pos {m : GameMap} {s z : Cell} {p : List Cell}
    (h : QL m s z p) : 0 < p.length := by
  rcases p with _ | ⟨a, q⟩
  · cases h.1
  · simp

/-- Well-formedness of a search node: its parent chain is a quasi-path
from the start to its position with exactly g edges, its stored h is the
Manhattan heuristic of its position, and its position is valid. -/
def NodeOk (m : GameMap) (s endC : Cell) (n : ANode) : Prop :=
  QL m s n.pos n.chain ∧ n.chain.length = n.g + 1 ∧
  n.h = heuristic n.pos endC ∧ isValidVec n.pos = true

/-- The chain of a child node extends the parent's chain. -/
theorem chain_mk_some (w : Cell) (g h : ℕ) (cur : ANode) :
    (ANode.mk w g h (some cur)).chain = cur.chain ++ [w] := by
  rcases cur with ⟨p, g2, h2, par⟩
  rfl

/-- Extending a well-formed node by a walkable 4-neighbor preserves
well-formedness. -/
theorem NodeOk_snoc (m : GameMap) (s endC : Cell) (cur : ANode) (w : Cell) (h2 : ℕ)
    (hok : NodeOk m s endC cur) (hadj : Adj cur.pos w)
    (hw : isWalkable m w = true) (hh : h2 = heuristic w endC) :
    NodeOk m s endC (ANode.mk w (cur.g + 1) h2 (some cur)) := by
  obtain ⟨⟨hhead, hlast, hchain, htail⟩, hlen, hheur, hval⟩ := hok
  have hne : cur.chain ≠ [] := by
    intro h
    rw [h] at hhead
    cases hhead
  refine ⟨⟨?_, ?_, ?_, ?_⟩, ?_, ?_, ?_⟩
  · rw [chain_mk_some]
    rcases hq : cur.chain with _ | ⟨a, q⟩
    · exact absurd hq hne
    · rw [hq] at hhead
      simpa using hhead
  · rw [chain_mk_some]
    simp
    rfl
  · rw [chain_mk_some]
    rw [List.chain'_append]
    refine ⟨hchain, List.chain'_singleton _, ?_⟩
    intro x hx y hy
    rw [hlast] at hx
    cases hx
    simp at hy
    rw [← hy]
    exact hadj
  · rw [chain_mk_some]
    intro c hc
    rcases hq : cur.chain with _ | ⟨a, q⟩
    · exact absurd hq hne
    · rw [hq] at hc
      simp only [List.cons_append, List.tail_cons] at hc
      rcases List.mem_append.mp hc with hc1 | hc2
      · exact htail c (by rw [hq]; exact hc1)
      · simp at hc2
        rw [hc2]
        exact hw
  · rw [chain_mk_some]
    simp [hlen]
    rfl
  · exact hh
  · exact walkable_valid m w hw

/-- findNode finds nothing exactly when no node has the position. -/
theorem findNode_none_iff (l : List ANode) (c : Cell) :
    findNode l c = none ↔ ∀ nd ∈ l, nd.pos ≠ c := by
  induction l with
  | nil => simp [findNode]
  | cons a as ih =>
    unfold findNode
    by_cases ha : a.pos = c
    · rw [if_pos ha]
      constructor
      · intro h
        cases h
      · intro hall
        exact absurd ha (hall a (List.mem_cons_self _ _))
    · rw [if_neg ha]
      rw [ih]
      constructor
      · intro hall nd hnd
        rcases List.mem_cons.mp hnd with rfl | h2
        · exact ha
        · exact hall nd h2
      · intro hall nd hnd
        exact hall nd (List.mem_cons_of_mem _ hnd)

/-- A found node is a member and sits at the looked-up position. -/
theorem findNode_some (l : List ANode) (c : Cell) (ex : ANode)
    (h : findNode l c = some ex) : ex ∈ l ∧ ex.pos = c := by
  induction l with
  | nil => cases h
  | cons a as ih =>
    unfold findNode at h
    by_cases ha : a.pos = c
    · rw [if_pos ha] at h
      cases h
      exact ⟨List.mem_cons_self _ _, ha⟩
    · rw [if_neg ha] at h
      obtain ⟨h1, h2⟩ := ih h
      exact ⟨List.mem_cons_of_mem _ h1, h2⟩

/-- Members of the updated open set are old members or the single
replacement node built from some old node at the looked-up position. -/
theorem updateNode_mem (l : List ANode) (c : Cell) (g2 : ℕ) (par : ANode) :
    ∀ nd ∈ updateNode l c g2 par,
      nd ∈ l ∨ ∃ ex ∈ l, ex.pos = c ∧ nd = ANode.mk c g2 ex.h (some par) := by
  induction l with
  | nil => intro nd h; cases h
  | cons a as ih =>
    intro nd h
    unfold updateNode at h
    by_cases ha : a.pos = c
    · rw [if_pos ha] at h
      rcases List.mem_cons.mp h with heq | h2
      · right
        refine ⟨a, List.mem_cons_self _ _, ha, ?_⟩
        rw [heq, ha]
      · exact Or.inl (List.mem_cons_of_mem _ h2)
    · rw [if_neg ha] at h
      rcases List.mem_cons.mp h with heq | h2
      · exact Or.inl (heq ▸ List.mem_cons_self _ _)
      · rcases ih nd h2 with h3 | ⟨ex, hex, hpos, hnd⟩
        · exact Or.inl (List.mem_cons_of_mem _ h3)
        · exact Or.inr ⟨ex, List.mem_cons_of_mem _ hex, hpos, hnd⟩

/-- Updating preserves the position list. -/
theorem updateNode_map_pos (l : List ANode) (c : Cell) (g2 : ℕ) (par : ANode) :
    (updateNode l c g2 par).map ANode.pos = l.map ANode.pos := by
  induction l with
  | nil => rfl
  | cons a as ih =>
    unfold updateNode
    by_cases ha : a.pos = c
    · rw [if_pos ha]
      simp [ha, ANode.pos, ih]
    · rw [if_neg ha]
      simp [ih]

/-- Nodes at other positions survive an update unchanged. -/
theorem updateNode_keep (l : List ANode) (c : Cell) (g2 : ℕ) (par : ANode) :
    ∀ nd ∈ l, nd.pos ≠ c → nd ∈ updateNode l c g2 par := by
  induction l with
  | nil => intro nd h; cases h
  | cons a as ih =>
    intro nd h hne
    unfold updateNode
    by_cases ha : a.pos = c
    · rw [if_pos ha]
      rcases List.mem_cons.mp h with heq | h2
      · exact absurd (heq ▸ ha) hne
      · exact List.mem_cons_of_mem _ h2
    · rw [if_neg ha]
      rcases List.mem_cons.mp h with heq | h2
      · exact heq ▸ List.mem_cons_self _ _
      · exact List.mem_cons_of_mem _ (ih nd h2 hne)

/-- When a node at the position exists, the updated list carries a node
at that position with cost exactly g2. -/
theorem updateNode_hit (l : List ANode) (c : Cell) (g2 : ℕ) (par : ANode)
    (ex : ANode) (hfind : findNode l c = some ex) :
    ∃ nd ∈ updateNode l c g2 par, nd.pos = c ∧ nd.g = g2 := by
  induction l with
  | nil => cases hfind
  | cons a as ih =>
    unfold findNode at hfind
    unfold updateNode
    by_cases ha : a.pos = c
    · rw [if_pos ha]
      exact ⟨ANode.mk a.pos g2 a.h (some par), List.mem_cons_self _ _, ha, rfl⟩
    · rw [if_neg ha] at hfind
      rw [if_neg ha]
      obtain ⟨nd, hmem, hpos, hg⟩ := ih hfind
      exact ⟨nd, List.mem_cons_of_mem _ hmem, hpos, hg⟩

/-- minF is a lower bound on every member's f. -/
theorem minF_le (l : List ANode) : ∀ nd ∈ l, minF l ≤ nd.f := by
  induction l with
  | nil => intro nd h; cases h
  | cons a as ih =>
    intro nd h
    rcases has : as with _ | ⟨b, bs⟩
    · rw [has] at h
      simp at h
      rw [h]
      exact le_refl _
    · rw [← has]
      have hmin : minF (a :: as) = min a.f (minF as) := by
        rw [has]
        rfl
      rw [hmin]
      rcases List.mem_cons.mp h with rfl | h2
      · exact min_le_left _ _
      · exact le_trans (min_le_right _ _) (ih nd h2)

/-- The first-minimum index is in range for nonempty lists. -/
theorem firstMinIdx_lt (l : List ANode) (h : l ≠ []) : firstMinIdx l < l.length := by
  induction l with
  | nil => exact absurd rfl h
  | cons a as ih =>
    rcases has : as with _ | ⟨b, bs⟩
    · simp [firstMinIdx]
    · rw [← has]
      have hfm : firstMinIdx (a :: as) =
          if a.f ≤ minF as then 0 else firstMinIdx as + 1 := by
        rw [has]
        rfl
      rw [hfm]
      by_cases hle : a.f ≤ minF as
      · rw [if_pos hle]
        simp
      · rw [if_neg hle]
        have := ih (by rw [has]; intro hc; cases hc)
        simpa using Nat.succ_lt_succ this

/-- getD at an in-range index is a member. -/
theorem getD_mem (l : List ANode) (i : ℕ) (d : ANode) (h : i < l.length) :
    l.getD i d ∈ l := by
  induction l generalizing i with
  | nil => cases h
  | cons a as ih =>
    cases i with
    | zero => exact List.mem_cons_self _ _
    | succ j =>
      have : (a :: as).getD (j + 1) d = as.getD j d := rfl
      rw [this]
      exact List.mem_cons_of_mem _ (ih j (by simpa using Nat.lt_of_succ_lt_succ h))

/-- The node at the first-minimum index attains minF. -/
theorem firstMinIdx_getD (l : List ANode) (h : l ≠ []) :
    (l.getD (firstMinIdx l) dummyNode).f = minF l := by
  induction l with
  | nil => exact absurd rfl h
  | cons a as ih =>
    rcases has : as with _ | ⟨b, bs⟩
    · subst has
      simp [firstMinIdx, minF, List.getD]
    · have hne : as ≠ [] := by rw [has]; intro hc; cases hc
      have hfm : firstMinIdx (a :: as) =
          if a.f ≤ minF as then 0 else firstMinIdx as + 1 := by
        rw [has]; rfl
      have hmin : minF (a :: as) = min a.f (minF as) := by
        rw [has]; rfl
      rw [← has, hfm, hmin]
      by_cases hle : a.f ≤ minF as
      · rw [if_pos hle]
        have : (a :: as).getD 0 dummyNode = a := rfl
        rw [this]
        exact (min_eq_left hle).symm
      · rw [if_neg hle]
        have : (a :: as).getD (firstMinIdx as + 1) dummyNode =
            as.getD (firstMinIdx as) dummyNode := rfl
        rw [this, ih hne]
        exact (min_eq_right (le_of_not_le hle)).symm

/-- The popped node's f is minimal over the open set. -/
theorem firstMinIdx_min (l : List ANode) (h : l ≠ []) :
    ∀ nd ∈ l, (l.getD (firstMinIdx l) dummyNode).f ≤ nd.f := by
  rw [firstMinIdx_getD l h]
  exact minF_le l

/-- Elements different from the element at the removed index survive
eraseIdx. -/
theorem mem_eraseIdx_of_ne (l : List ANode) (i : ℕ) (a : ANode) (ha : a ∈ l)
    (hne : a ≠ l.getD i dummyNode) : a ∈ l.eraseIdx i := by
  induction l generalizing i with
  | nil => cases ha
  | cons b bs ih =>
    cases i with
    | zero =>
      rcases List.mem_cons.mp ha with heq | h2
      · exact absurd (by rw [heq]; rfl) hne
      · simpa [List.eraseIdx] using h2
    | succ j =>
      simp only [List.eraseIdx]
      rcases List.mem_cons.mp ha with heq | h2
      · exact heq ▸ List.mem_cons_self _ _
      · exact List.mem_cons_of_mem _ (ih j h2 hne)

/-- Members of eraseIdx are members. -/
theorem mem_of_mem_eraseIdx (l : List ANode) (i : ℕ) (a : ANode)
    (h : a ∈ l.eraseIdx i) : a ∈ l :=
  (List.eraseIdx_sublist l i).mem h

/-- setAdd adds a cell to a set list. -/
theorem mem_setAdd (l : List Cell) (c d : Cell) :
    d ∈ setAdd l c ↔ d ∈ l ∨ d = c := by
  unfold setAdd
  by_cases h : c ∈ l
  · rw [if_pos h]
    constructor
    · exact Or.inl
    · rintro (h2 | rfl)
      · exact h2
      · exact h
  · rw [if_neg h]
    simp [or_comm]

/-- setAdd of a fresh cell preserves Nodup. -/
theorem setAdd_nodup (l : List Cell) (c : Cell) (h : l.Nodup) : (setAdd l c).Nodup := by
  unfold setAdd
  by_cases hc : c ∈ l
  · rw [if_pos hc]
    exact h
  · rw [if_neg hc]
    exact List.nodup_cons.mpr ⟨hc, h⟩

/-- setAdd of a fresh cell grows the set by one. -/
theorem setAdd_length (l : List Cell) (c : Cell) (h : c ∉ l) :
    (setAdd l c).length = l.length + 1 := by
  unfold setAdd
  rw [if_neg h]
  rfl

/-- In a position-distinct list, members are determined by position. -/
theorem pairwise_pos_unique (l : List ANode)
    (h : l.Pairwise (fun a b => a.pos ≠ b.pos)) :
    ∀ a ∈ l, ∀ b ∈ l, a.pos = b.pos → a = b := by
  induction l with
  | nil => intro a ha; cases ha
  | cons x xs ih =>
    rw [List.pairwise_cons] at h
    intro a ha b hb hab
    rcases List.mem_cons.mp ha with rfl | ha2 <;> rcases List.mem_cons.mp hb with rfl | hb2
    · rfl
    · exact absurd hab (h.1 b hb2)
    · exact absurd hab.symm (h.1 a ha2)
    · exact ih h.2 a ha2 b hb2 hab

/-- Encoding of valid cells as small naturals. -/
def cellCode (c : Cell) : ℕ := (c.x + c.y * 20).toNat

/-- A Nodup list of valid cells has at most 300 members. -/
theorem closed_card_le (cs : List Cell) (hnd : cs.Nodup)
    (hval : ∀ c ∈ cs, isValidVec c = true) : cs.length ≤ 300 := by
  have hinj : ∀ a ∈ cs, ∀ b ∈ cs, cellCode a = cellCode b → a = b := by
    intro a ha b hb hab
    have hva := hval a ha
    have hvb := hval b hb
    unfold isValidVec isValid at hva hvb
    rw [decide_eq_true_eq] at hva hvb
    unfold cellCode at hab
    unfold MAP_W MAP_H at hva hvb
    rcases a with ⟨ax, ay⟩
    rcases b with ⟨bx, by2⟩
    simp only [Cell.mk.injEq]
    dsimp only [] at hab hva hvb
    omega
  have hnd2 : (cs.map cellCode).Nodup := List.Nodup.map_on hinj hnd
  have h1 : (cs.map cellCode).toFinset ⊆ Finset.range 300 := by
    intro n hn
    rw [List.mem_toFinset] at hn
    rw [Finset.mem_range]
    rcases List.mem_map.mp hn with ⟨c, hc, rfl⟩
    have hv := hval c hc
    unfold isValidVec isValid at hv
    rw [decide_eq_true_eq] at hv
    unfold MAP_W MAP_H at hv
    unfold cellCode
    omega
  have h2 : (cs.map cellCode).toFinset.card = (cs.map cellCode).length :=
    List.toFinset_card_of_nodup hnd2
  have h3 := Finset.card_le_card h1
  rw [h2, Finset.card_range, List.length_map] at h3
  exact h3

/-- The A-star loop invariant: open nodes are well-formed and
position-distinct, open and closed are disjoint, closed cells are valid
and duplicate-free, the goal is unclosed, the start is settled or open
with cost 0, and each closed cell's unclosed walkable neighbors are
covered by open nodes whose cost is at most one more than any quasi-path
to the closed cell. -/
structure AInv (m : GameMap) (s endC : Cell) (os : List ANode) (cs : List Cell) : Prop where
  nodes : ∀ nd ∈ os, NodeOk m s endC nd
  distinct : os.Pairwise (fun a b => a.pos ≠ b.pos)
  openNotClosed : ∀ nd ∈ os, nd.pos ∉ cs
  closedValid : ∀ c ∈ cs, isValidVec c = true
  closedNodup : cs.Nodup
  endOpen : endC ∉ cs
  startOk : s ∈ cs ∨ ∃ nd ∈ os, nd.pos = s ∧ nd.g = 0
  frontier : ∀ c ∈ cs, ∀ w, Adj c w → isWalkable m w = true → w ∉ cs →
    ∀ p, QL m s c p → ∃ nd ∈ os, nd.pos = w ∧ nd.g ≤ p.length

/-- Cover: every quasi-path to an unclosed cell is matched by an open
node whose f does not exceed the path's edge count plus the target's
heuristic (the A-star frontier property under a consistent heuristic). -/
theorem cover {m : GameMap} {s endC : Cell} {os : List ANode} {cs : List Cell}
    (inv : AInv m s endC os cs) :
    ∀ p z, QL m s z p → z ∉ cs →
      ∃ nd ∈ os, nd.g + nd.h ≤ (p.length - 1) + heuristic z endC := by
  intro p
  induction p using List.reverseRecOn with
  | nil =>
    intro z hql hz
    exact absurd hql.1 (by simp)
  | append_singleton q z0 ih =>
    intro z hql hz
    have hz0 : z0 = z := by
      have h := hql.2.1
      rw [List.getLast?_concat] at h
      exact Option.some.inj h
    subst hz0
    rcases hq : q with _ | ⟨q0, q1⟩
    · have hs : z0 = s := by
        rw [hq] at hql
        have h := hql.1
        simp at h
        exact h
      rcases inv.startOk with hcs | ⟨nd, hmem, hpos, hg⟩
      · exact absurd (hs ▸ hcs) hz
      · refine ⟨nd, hmem, ?_⟩
        have hh := (inv.nodes nd hmem).2.2.1
        rw [hh, hpos, hg, hs]
        simp
    · subst hq
      have hqne : (q0 :: q1) ≠ [] := by intro hc; cases hc
      obtain ⟨c, hc⟩ : ∃ c, (q0 :: q1).getLast? = some c :=
        ⟨(q0 :: q1).getLast hqne, List.getLast?_eq_getLast _ hqne⟩
      have hchain := hql.2.2.1
      rw [List.chain'_append] at hchain
      have hadj : Adj c z0 := by
        refine hchain.2.2 c ?_ z0 ?_
        · exact hc
        · rfl
      have htailp := hql.2.2.2
      have hwz : isWalkable m z0 = true := by
        apply htailp
        show z0 ∈ ((q0 :: q1) ++ [z0]).tail
        simp
      have hqlq : QL m s c (q0 :: q1) := by
        refine ⟨?_, hc, hchain.1, ?_⟩
        · have h := hql.1
          simpa using h
        · intro x hx
          apply htailp
          show x ∈ ((q0 :: q1) ++ [z0]).tail
          simp only [List.cons_append, List.tail_cons]
          exact List.mem_append_left _ hx
      by_cases hccs : c ∈ cs
      · obtain ⟨nd, hmem, hpos, hg⟩ := inv.frontier c hccs z0 hadj hwz hz (q0 :: q1) hqlq
        refine ⟨nd, hmem, ?_⟩
        have hh := (inv.nodes nd hmem).2.2.1
        rw [hh, hpos]
        have hlen : ((q0 :: q1) ++ [z0]).length = (q0 :: q1).length + 1 := by simp
        omega
      · obtain ⟨nd, hmem, hle⟩ := ih c hqlq hccs
        refine ⟨nd, hmem, ?_⟩
        have hH := heuristic_adj c z0 endC hadj
        have hlen1 : 1 ≤ (q0 :: q1).length := by simp
        have hlen : ((q0 :: q1) ++ [z0]).length = (q0 :: q1).length + 1 := by simp
        omega

/-- The popped node has minimal cost: its g plus one is at most the
length of any quasi-path to its position. -/
theorem pop_g_min {m : GameMap} {s endC : Cell} {os : List ANode} {cs : List Cell}
    (inv : AInv m s endC os cs) (hne : os ≠ []) :
    ∀ p, QL m s (os.getD (firstMinIdx os) dummyNode).pos p →
      (os.getD (firstMinIdx os) dummyNode).g + 1 ≤ p.length := by
  intro p hql
  have hmem : os.getD (firstMinIdx os) dummyNode ∈ os :=
    getD_mem os _ dummyNode (firstMinIdx_lt os hne)
  have hnc := inv.openNotClosed _ hmem
  obtain ⟨nd, hnd, hle⟩ := cover inv p _ hql hnc
  have hmin := firstMinIdx_min os hne nd hnd
  have hh := (inv.nodes _ hmem).2.2.1
  have hlen := QL.length_pos hql
  unfold ANode.f at hmin
  omega

/-- Transport of pairwise position-distinctness along equal position
lists. -/
theorem pairwise_of_map_pos_eq (l l2 : List ANode)
    (h : l2.map ANode.pos = l.map ANode.pos)
    (hp : l.Pairwise (fun a b => a.pos ≠ b.pos)) :
    l2.Pairwise (fun a b => a.pos ≠ b.pos) := by
  have h1 : (l.map ANode.pos).Pairwise Ne := by
    rw [List.pairwise_map]
    exact hp
  have h2 : (l2.map ANode.pos).Pairwise Ne := h ▸ h1
  rw [List.pairwise_map] at h2
  exact h2

/-- One neighbor step preserves well-formedness, distinctness and
open-closed disjointness of the open set, never raises any position's
best cost, and afterwards covers the processed neighbor (when walkable
and unclosed) at cost at most g+1. -/
theorem processNeighbor_spec (m : GameMap) (s endC : Cell) (cur : ANode)
    (cs2 : List Cell) (acc : List ANode) (np : Cell)
    (hok : NodeOk m s endC cur) (hadj : Adj cur.pos np)
    (haccok : ∀ nd ∈ acc, NodeOk m s endC nd)
    (haccd : acc.Pairwise (fun a b => a.pos ≠ b.pos))
    (haccc : ∀ nd ∈ acc, nd.pos ∉ cs2) :
    (∀ nd ∈ processNeighbor m endC cur cs2 acc np, NodeOk m s endC nd) ∧
    (processNeighbor m endC cur cs2 acc np).Pairwise (fun a b => a.pos ≠ b.pos) ∧
    (∀ nd ∈ processNeighbor m endC cur cs2 acc np, nd.pos ∉ cs2) ∧
    (∀ nd0 ∈ acc, ∃ nd ∈ processNeighbor m endC cur cs2 acc np,
      nd.pos = nd0.pos ∧ nd.g ≤ nd0.g) ∧
    (isWalkable m np = true → np ∉ cs2 →
      ∃ nd ∈ processNeighbor m endC cur cs2 acc np,
        nd.pos = np ∧ nd.g ≤ cur.g + 1) := by
  by_cases hguard : np ∈ cs2 ∨ isWalkable m np = false
  · have hres : processNeighbor m endC cur cs2 acc np = acc := by
      unfold processNeighbor
      rw [if_pos hguard]
    rw [hres]
    refine ⟨haccok, haccd, haccc, ?_, ?_⟩
    · intro nd0 h0
      exact ⟨nd0, h0, rfl, le_refl _⟩
    · intro hw hnc
      rcases hguard with h | h
      · exact absurd h hnc
      · rw [hw] at h
        cases h
  · have hnc2 : np ∉ cs2 := fun h => hguard (Or.inl h)
    have hw2 : isWalkable m np = true := by
      rcases Bool.eq_false_or_eq_true (isWalkable m np) with h | h
      · exact h
      · exact absurd (Or.inr h) hguard
    rcases hfind : findNode acc np with _ | ex
    · have hres : processNeighbor m endC cur cs2 acc np =
          acc ++ [ANode.mk np (cur.g + 1) (heuristic np endC) (some cur)] := by
        simp only [processNeighbor, hfind]
        rw [if_neg hguard]
      rw [hres]
      have hfresh : ∀ nd ∈ acc, nd.pos ≠ np := (findNode_none_iff acc np).mp hfind
      refine ⟨?_, ?_, ?_, ?_, ?_⟩
      · intro nd hnd
        rcases List.mem_append.mp hnd with h | h
        · exact haccok nd h
        · rw [List.mem_singleton] at h
          rw [h]
          exact NodeOk_snoc m s endC cur np (heuristic np endC) hok hadj hw2 rfl
      · rw [List.pairwise_append]
        refine ⟨haccd, List.pairwise_singleton _ _, ?_⟩
        intro a ha b hb
        rw [List.mem_singleton] at hb
        rw [hb]
        exact hfresh a ha
      · intro nd hnd
        rcases List.mem_append.mp hnd with h | h
        · exact haccc nd h
        · rw [List.mem_singleton] at h
          rw [h]
          exact hnc2
      · intro nd0 h0
        exact ⟨nd0, List.mem_append_left _ h0, rfl, le_refl _⟩
      · intro _ _
        refine ⟨ANode.mk np (cur.g + 1) (heuristic np endC) (some cur),
          List.mem_append_right _ (List.mem_singleton_self _), rfl, le_refl _⟩
    · obtain ⟨hexmem, hexpos⟩ := findNode_some acc np ex hfind
      by_cases hlt : cur.g + 1 < ex.g
      · have hres : processNeighbor m endC cur cs2 acc np =
            updateNode acc np (cur.g + 1) cur := by
          simp only [processNeighbor, hfind]
          rw [if_neg hguard, if_pos hlt]
        rw [hres]
        refine ⟨?_, ?_, ?_, ?_, ?_⟩
        · intro nd hnd
          rcases updateNode_mem acc np (cur.g + 1) cur nd hnd with h | ⟨ex2, hex2, hp2, hnd2⟩
          · exact haccok nd h
          · rw [hnd2]
            have hh2 : ex2.h = heuristic np endC := by
              have := (haccok ex2 hex2).2.2.1
              rw [hp2] at this
              exact this
            exact NodeOk_snoc m s endC cur np ex2.h hok hadj hw2 hh2
        · exact pairwise_of_map_pos_eq acc _ (updateNode_map_pos acc np (cur.g + 1) cur) haccd
        · intro nd hnd
          rcases updateNode_mem acc np (cur.g + 1) cur nd hnd with h | ⟨ex2, hex2, hp2, hnd2⟩
          · exact haccc nd h
          · rw [hnd2]
            exact hnc2
        · intro nd0 h0
          by_cases hp : nd0.pos = np
          · have hnd0 : nd0 = ex :=
              pairwise_pos_unique acc haccd nd0 h0 ex hexmem (hp.trans hexpos.symm)
            obtain ⟨nd, hm, hpos, hg⟩ := updateNode_hit acc np (cur.g + 1) cur ex hfind
            refine ⟨nd, hm, hpos.trans hp.symm, ?_⟩
            rw [hg, hnd0]
            exact Nat.le_of_lt hlt
          · exact ⟨nd0, updateNode_keep acc np (cur.g + 1) cur nd0 h0 hp, rfl, le_refl _⟩
        · intro _ _
          obtain ⟨nd, hm, hpos, hg⟩ := updateNode_hit acc np (cur.g + 1) cur ex hfind
          exact ⟨nd, hm, hpos, le_of_eq hg⟩
      · have hres : processNeighbor m endC cur cs2 acc np = acc := by
          simp only [processNeighbor, hfind]
          rw [if_neg hguard, if_neg hlt]
        rw [hres]
        refine ⟨haccok, haccd, haccc, ?_, ?_⟩
        · intro nd0 h0
          exact ⟨nd0, h0, rfl, le_refl _⟩
        · intro _ _
          exact ⟨ex, hexmem, hexpos, Nat.le_of_not_lt hlt⟩

/-- The neighbor fold preserves the open-set properties, never raises
any position's best cost, and covers every walkable unclosed neighbor
in the list at cost at most g+1. -/
theorem foldNeighbors_spec (m : GameMap) (s endC : Cell) (cur : ANode)
    (cs2 : List Cell) (hok : NodeOk m s endC cur) :
    ∀ (ns : List Cell), (∀ np ∈ ns, Adj cur.pos np) →
    ∀ (acc : List ANode),
      (∀ nd ∈ acc, NodeOk m s endC nd) →
      acc.Pairwise (fun a b => a.pos ≠ b.pos) →
      (∀ nd ∈ acc, nd.pos ∉ cs2) →
      (∀ nd ∈ ns.foldl (fun a np => processNeighbor m endC cur cs2 a np) acc,
        NodeOk m s endC nd) ∧
      (ns.foldl (fun a np => processNeighbor m endC cur cs2 a np) acc).Pairwise
        (fun a b => a.pos ≠ b.pos) ∧
      (∀ nd ∈ ns.foldl (fun a np => processNeighbor m endC cur cs2 a np) acc,
        nd.pos ∉ cs2) ∧
      (∀ nd0 ∈ acc,
        ∃ nd ∈ ns.foldl (fun a np => processNeighbor m endC cur cs2 a np) acc,
          nd.pos = nd0.pos ∧ nd.g ≤ nd0.g) ∧
      (∀ np ∈ ns, isWalkable m np = true → np ∉ cs2 →
        ∃ nd ∈ ns.foldl (fun a np => processNeighbor m endC cur cs2 a np) acc,
          nd.pos = np ∧ nd.g ≤ cur.g + 1) := by
  intro ns
  induction ns with
  | nil =>
    intro _ acc h1 h2 h3
    refine ⟨h1, h2, h3, ?_, ?_⟩
    · intro nd0 h0
      exact ⟨nd0, h0, rfl, le_refl _⟩
    · intro np hnp
      cases hnp
  | cons np0 ns2 ih =>
    intro hadjs acc h1 h2 h3
    rw [List.foldl_cons]
    obtain ⟨p1, p2, p3, p4, p5⟩ := processNeighbor_spec m s endC cur cs2 acc np0 hok
      (hadjs np0 (List.mem_cons_self _ _)) h1 h2 h3
    obtain ⟨q1, q2, q3, q4, q5⟩ := ih (fun np h => hadjs np (List.mem_cons_of_mem _ h))
      (processNeighbor m endC cur cs2 acc np0) p1 p2 p3
    refine ⟨q1, q2, q3, ?_, ?_⟩
    · intro nd0 h0
      obtain ⟨nd1, hm1, hp1, hg1⟩ := p4 nd0 h0
      obtain ⟨nd, hm, hp, hg⟩ := q4 nd1 hm1
      exact ⟨nd, hm, hp.trans hp1, hg.trans hg1⟩
    · intro np hnp hw hnc
      rcases List.mem_cons.mp hnp with rfl | hnp2
      · obtain ⟨nd1, hm1, hp1, hg1⟩ := p5 hw hnc
        obtain ⟨nd, hm, hp, hg⟩ := q4 nd1 hm1
        exact ⟨nd, hm, hp.trans hp1, hg.trans hg1⟩
      · exact q5 np hnp2 hw hnc

/-- In a position-distinct list, the element at an index does not
survive removal of that index. -/
theorem getD_not_mem_eraseIdx (l : List ANode) (i : ℕ) (hi : i < l.length)
    (hp : l.Pairwise (fun a b => a.pos ≠ b.pos)) :
    l.getD i dummyNode ∉ l.eraseIdx i := by
  induction l generalizing i with
  | nil => cases hi
  | cons b bs ih =>
    rw [List.pairwise_cons] at hp
    cases i with
    | zero =>
      intro hmem
      rw [List.getD_cons_zero] at hmem
      rw [List.eraseIdx_cons_zero] at hmem
      exact (hp.1 b hmem) rfl
    | succ j =>
      intro hmem
      rw [List.getD_cons_succ] at hmem
      rw [List.eraseIdx_cons_succ] at hmem
      rcases List.mem_cons.mp hmem with heq | h2
      · have hj : j < bs.length := by
          have := hi
          simp only [List.length_cons] at this
          omega
        have hm : bs.getD j dummyNode ∈ bs := getD_mem bs j dummyNode hj
        exact (hp.1 _ hm) (congrArg ANode.pos heq).symm
      · have hj : j < bs.length := by
          have := hi
          simp only [List.length_cons] at this
          omega
        exact ih j hj hp.2 h2

/-- One full non-goal iteration of the A-star loop preserves the
invariant: close the popped cell and fold its neighbors into the rest
of the open set. -/
theorem AInv_step {m : GameMap} {s endC : Cell} {os : List ANode} {cs : List Cell}
    (inv : AInv m s endC os cs) (hne : os ≠ [])
    (hnotend : (os.getD (firstMinIdx os) dummyNode).pos ≠ endC) :
    AInv m s endC
      ((getNeighbors (os.getD (firstMinIdx os) dummyNode).pos).foldl
        (fun acc np => processNeighbor m endC (os.getD (firstMinIdx os) dummyNode)
          (setAdd cs (os.getD (firstMinIdx os) dummyNode).pos) acc np)
        (os.eraseIdx (firstMinIdx os)))
      (setAdd cs (os.getD (firstMinIdx os) dummyNode).pos) := by
  have hlt : firstMinIdx os < os.length := firstMinIdx_lt os hne
  set i := firstMinIdx os with hidef
  set cur := os.getD i dummyNode with hcurdef
  have hcurmem : cur ∈ os := getD_mem os i dummyNode hlt
  have hcurok : NodeOk m s endC cur := inv.nodes cur hcurmem
  have hcurnc : cur.pos ∉ cs := inv.openNotClosed cur hcurmem
  set cs2 := setAdd cs cur.pos with hcs2def
  set base := os.eraseIdx i with hbasedef
  have hbok : ∀ nd ∈ base, NodeOk m s endC nd :=
    fun nd h => inv.nodes nd (mem_of_mem_eraseIdx os i nd h)
  have hbd : base.Pairwise (fun a b => a.pos ≠ b.pos) :=
    List.Pairwise.sublist (List.eraseIdx_sublist os i) inv.distinct
  have hcurnb : cur ∉ base := getD_not_mem_eraseIdx os i hlt inv.distinct
  have hbnc : ∀ nd ∈ base, nd.pos ∉ cs2 := by
    intro nd h hmem
    rcases (mem_setAdd cs cur.pos nd.pos).mp hmem with h1 | h2
    · exact inv.openNotClosed nd (mem_of_mem_eraseIdx os i nd h) h1
    · have hnd : nd = cur :=
        pairwise_pos_unique os inv.distinct nd (mem_of_mem_eraseIdx os i nd h) cur hcurmem h2
      rw [hnd] at h
      exact hcurnb h
  have hadjs : ∀ np ∈ getNeighbors cur.pos, Adj cur.pos np :=
    fun np h => (getNeighbors_mem_adj cur.pos np h).1
  obtain ⟨F1, F2, F3, F4, F5⟩ := foldNeighbors_spec m s endC cur cs2 hcurok
    (getNeighbors cur.pos) hadjs base hbok hbd hbnc
  refine ⟨F1, F2, F3, ?_, ?_, ?_, ?_, ?_⟩
  · intro c hc
    rcases (mem_setAdd cs cur.pos c).mp hc with h1 | h2
    · exact inv.closedValid c h1
    · rw [h2]
      exact hcurok.2.2.2
  · exact setAdd_nodup cs cur.pos inv.closedNodup
  · intro hc
    rcases (mem_setAdd cs cur.pos endC).mp hc with h1 | h2
    · exact inv.endOpen h1
    · exact hnotend h2.symm
  · rcases inv.startOk with h1 | ⟨nd, hmem, hpos, hg⟩
    · exact Or.inl ((mem_setAdd cs cur.pos s).mpr (Or.inl h1))
    · by_cases hp : nd.pos = cur.pos
      · left
        apply (mem_setAdd cs cur.pos s).mpr
        right
        rw [← hpos]
        exact hp
      · right
        have hndne : nd ≠ cur := fun h => hp (by rw [h])
        have hbase : nd ∈ base := mem_eraseIdx_of_ne os i nd hmem hndne
        obtain ⟨nd2, hm2, hp2, hg2⟩ := F4 nd hbase
        refine ⟨nd2, hm2, hp2.trans hpos, ?_⟩
        rw [hg] at hg2
        exact Nat.le_zero.mp hg2
  · intro c hc w hadj hw hwnc p hql
    rcases (mem_setAdd cs cur.pos c).mp hc with h1 | h2
    · obtain ⟨nd, hnd, hpos, hg⟩ := inv.frontier c h1 w hadj hw
        (fun hwcs => hwnc ((mem_setAdd cs cur.pos w).mpr (Or.inl hwcs))) p hql
      by_cases hp : nd.pos = cur.pos
      · have hwc : w = cur.pos := by
          rw [← hpos]
          exact hp
        exact absurd ((mem_setAdd cs cur.pos w).mpr (Or.inr hwc)) hwnc
      · have hndne : nd ≠ cur := fun h => hp (by rw [h])
        have hbase : nd ∈ base := mem_eraseIdx_of_ne os i nd hnd hndne
        obtain ⟨nd2, hm2, hp2, hg2⟩ := F4 nd hbase
        exact ⟨nd2, hm2, hp2.trans hpos, hg2.trans hg⟩
    · subst h2
      have hwv : isValidVec w = true := walkable_valid m w hw
      have hwmem : w ∈ getNeighbors cur.pos := adj_valid_mem_getNeighbors cur.pos w hadj hwv
      obtain ⟨nd, hm, hp, hg⟩ := F5 w hwmem hw hwnc
      refine ⟨nd, hm, hp, ?_⟩
      have hmin := pop_g_min inv hne p hql
      exact hg.trans hmin

/-- Unfolding of one loop iteration on a nonempty open set. -/
theorem astarLoop_succ (m : GameMap) (endC : Cell) (fuel : ℕ) (os : List ANode)
    (cs : List Cell) (hne : os ≠ []) :
    astarLoop m endC (fuel + 1) os cs =
      (if ((os.getD (firstMinIdx os) dummyNode).pos = endC)
       then (os.getD (firstMinIdx os) dummyNode).chain
       else astarLoop m endC fuel
         ((getNeighbors (os.getD (firstMinIdx os) dummyNode).pos).foldl
           (fun acc np => processNeighbor m endC (os.getD (firstMinIdx os) dummyNode)
             (setAdd cs (os.getD (firstMinIdx os) dummyNode).pos) acc np)
           (os.eraseIdx (firstMinIdx os)))
         (setAdd cs (os.getD (firstMinIdx os) dummyNode).pos)) := by
  rcases os with _ | ⟨o, os2⟩
  · exact absurd rfl hne
  · rfl

/-- A-star loop correctness: from an invariant state with enough fuel,
the result is a shortest quasi-path to the goal when one exists, and
empty when none exists. -/
theorem astarLoop_correct (m : GameMap) (s endC : Cell) :
    ∀ fuel os cs, AInv m s endC os cs → 300 < fuel + cs.length →
      (∀ p, QL m s endC p →
        QL m s endC (astarLoop m endC fuel os cs) ∧
        (astarLoop m endC fuel os cs).length ≤ p.length) ∧
      ((∀ p, ¬ QL m s endC p) → astarLoop m endC fuel os cs = []) := by
  intro fuel
  induction fuel with
  | zero =>
    intro os cs inv hfuel
    have hle := closed_card_le cs inv.closedNodup inv.closedValid
    exact absurd hfuel (by omega)
  | succ fuel ih =>
    intro os cs inv hfuel
    rcases os with _ | ⟨o, os2⟩
    · constructor
      · intro p hql
        obtain ⟨nd, hnd, -⟩ := cover inv p endC hql inv.endOpen
        cases hnd
      · intro _
        rfl
    · have hne : (o :: os2) ≠ [] := by
        intro h
        cases h
      rw [astarLoop_succ m endC fuel (o :: os2) cs hne]
      by_cases hend : ((o :: os2).getD (firstMinIdx (o :: os2)) dummyNode).pos = endC
      · rw [if_pos hend]
        have hcurmem : (o :: os2).getD (firstMinIdx (o :: os2)) dummyNode ∈ (o :: os2) :=
          getD_mem _ _ _ (firstMinIdx_lt _ hne)
        have hok := inv.nodes _ hcurmem
        have hchain : QL m s endC ((o :: os2).getD (firstMinIdx (o :: os2)) dummyNode).chain := by
          have h := hok.1
          rw [hend] at h
          exact h
        constructor
        · intro p hql
          refine ⟨hchain, ?_⟩
          have hlen := hok.2.1
          have hmin := pop_g_min inv hne p (by rw [hend]; exact hql)
          omega
        · intro hnone
          exact absurd hchain (hnone _)
      · rw [if_neg hend]
        have inv2 := AInv_step inv hne hend
        have hcurnc := inv.openNotClosed ((o :: os2).getD (firstMinIdx (o :: os2)) dummyNode)
          (getD_mem (o :: os2) (firstMinIdx (o :: os2)) dummyNode (firstMinIdx_lt _ hne))
        have hlen2 : (setAdd cs ((o :: os2).getD (firstMinIdx (o :: os2)) dummyNode).pos).length
            = cs.length + 1 := setAdd_length cs _ hcurnc
        exact ih _ _ inv2 (by omega)

/-- The invariant holds at the search's initial state: one start node of
cost zero and an empty closed set. -/
theorem AInv_init (m : GameMap) (s e : Cell) (hvs : isValidVec s = true) :
    AInv m s e [ANode.mk s 0 (heuristic s e) none] [] := by
  refine ⟨?_, ?_, ?_, ?_, ?_, ?_, ?_, ?_⟩
  · intro nd hnd
    rw [List.mem_singleton] at hnd
    rw [hnd]
    refine ⟨⟨rfl, rfl, ?_, ?_⟩, rfl, rfl, hvs⟩
    · exact List.chain'_singleton s
    · intro c hc
      cases hc
  · exact List.pairwise_singleton _ _
  · intro nd _
    exact List.not_mem_nil _
  · intro c hc
    exact absurd hc (List.not_mem_nil c)
  · exact List.nodup_nil
  · exact List.not_mem_nil e
  · right
    exact ⟨ANode.mk s 0 (heuristic s e) none, List.mem_singleton_self _, rfl, rfl⟩
  · intro c hc
    exact absurd hc (List.not_mem_nil c)

/-- findPath correctness over quasi-paths, for valid endpoints. -/
theorem findPath_correct (m : GameMap) (s e : Cell)
    (hvs : isValidVec s = true) (hve : isValidVec e = true) :
    (∀ p, QL m s e p →
      QL m s e (findPath m s e) ∧ (findPath m s e).length ≤ p.length) ∧
    ((∀ p, ¬ QL m s e p) → findPath m s e = []) := by
  have hcond : ¬(isValidVec s = false ∨ isValidVec e = false) := by
    rw [hvs, hve]
    simp
  have hres : findPath m s e =
      astarLoop m e 301 [ANode.mk s 0 (heuristic s e) none] [] := by
    unfold findPath
    rw [if_neg hcond]
    have h301 : MAP_W.toNat * MAP_H.toNat + 1 = 301 := rfl
    rw [h301]
  rw [hres]
  exact astarLoop_correct m s e 301 _ _ (AInv_init m s e hvs) (by norm_num)

/-- C5 (corrected): on a map whose tiles array covers the full grid
(so every tile read in the source is defined and the model is
faithful), for every valid start and end cell whose start cell is
itself walkable, findPath returns a shortest 4-connected path of
walkable cells from start to end when one exists, and the empty list
when none exists. The walkable-start hypothesis is necessary: the
search seeds the open set with the start cell without checking its
walkability, so an unwalkable start can yield a nonempty result even
though no fully walkable path exists. -/
theorem C5_findPath_optimal (m : GameMap) (s e : Cell)
    (htc : tilesCover m = true)
    (hvs : isValidVec s = true) (hve : isValidVec e = true)
    (hws : isWalkable m s = true) :
    (∀ p, WalkPath m s e p →
      WalkPath m s e (findPath m s e) ∧ (findPath m s e).length ≤ p.length) ∧
    ((∀ p, ¬ WalkPath m s e p) → findPath m s e = []) := by
  obtain ⟨h1, h2⟩ := findPath_correct m s e hvs hve
  constructor
  · intro p hwp
    obtain ⟨hq, hlen⟩ := h1 p hwp.toQL
    exact ⟨hq.toWalkPath hws, hlen⟩
  · intro hnone
    apply h2
    intro p hq
    exact hnone p (hq.toWalkPath hws)

/-- A fully blocked 20-tile row. -/
def rowBlocked : List TileType := List.replicate 20 TileType.blocked

/-- A full 20-by-15 map whose only walkable cells are the three path
tiles (0,0), (1,0), (2,0) in the top row; every other cell holds a
blocked tile, so every tile read is defined in the source. -/
def mapC5 : GameMap :=
  { width := 20, height := 15,
    tiles := (TileType.path :: TileType.path :: TileType.path ::
      List.replicate 17 TileType.blocked) :: List.replicate 14 rowBlocked,
    paths := [], spawnPoints := [], basePosition := ⟨0, 0⟩ }

/-- Witness for C5: on mapC5 the search from (0,0) to (2,0) returns the
unique walkable path, and the correctness theorem applies at these
concrete inputs. -/
theorem C5_witness :
    tilesCover mapC5 = true ∧
    isValidVec (⟨0, 0⟩ : Cell) = true ∧ isValidVec (⟨2, 0⟩ : Cell) = true ∧
    isWalkable mapC5 ⟨0, 0⟩ = true ∧
    findPath mapC5 ⟨0, 0⟩ ⟨2, 0⟩ = [⟨0, 0⟩, ⟨1, 0⟩, ⟨2, 0⟩] ∧
    ((∀ p, WalkPath mapC5 ⟨0, 0⟩ ⟨2, 0⟩ p →
      WalkPath mapC5 ⟨0, 0⟩ ⟨2, 0⟩ (findPath mapC5 ⟨0, 0⟩ ⟨2, 0⟩) ∧
      (findPath mapC5 ⟨0, 0⟩ ⟨2, 0⟩).length ≤ p.length) ∧
    ((∀ p, ¬ WalkPath mapC5 ⟨0, 0⟩ ⟨2, 0⟩ p) →
      findPath mapC5 ⟨0, 0⟩ ⟨2, 0⟩ = [])) :=
  ⟨by decide, by decide, by decide, by decide, by decide,
    C5_findPath_optimal mapC5 ⟨0, 0⟩ ⟨2, 0⟩ (by decide) (by decide) (by decide)
      (by decide)⟩

/-- A full 20-by-15 map whose cell (0,0) is blocked, whose cell (1,0)
is a path tile, and whose every other cell holds a blocked tile, so
every tile read is defined in the source. -/
def mapX : GameMap :=
  { width := 20, height := 15,
    tiles := (TileType.blocked :: TileType.path ::
      List.replicate 18 TileType.blocked) :: List.replicate 14 rowBlocked,
    paths := [], spawnPoints := [], basePosition := ⟨0, 0⟩ }

/-- Counterexample to C5 as stated: on a fully covered map (every tile
read defined in the source) both endpoints are valid, no path of
walkable cells connects (0,0) to (1,0) — every such path would contain
the blocked start cell — yet findPath returns the nonempty sequence
[(0,0), (1,0)] instead of the empty one, because the start cell's
walkability is never checked. -/
theorem C5_counterexample :
    tilesCover mapX = true ∧
    isValidVec (⟨0, 0⟩ : Cell) = true ∧ isValidVec (⟨1, 0⟩ : Cell) = true ∧
    (∀ p, ¬ WalkPath mapX ⟨0, 0⟩ ⟨1, 0⟩ p) ∧
    findPath mapX ⟨0, 0⟩ ⟨1, 0⟩ = [⟨0, 0⟩, ⟨1, 0⟩] ∧
    findPath mapX ⟨0, 0⟩ ⟨1, 0⟩ ≠ [] := by
  refine ⟨by decide, by decide, by decide, ?_, by decide, by decide⟩
  intro p hwp
  have hhead : (⟨0, 0⟩ : Cell) ∈ p := by
    have h := hwp.1
    rcases p with _ | ⟨a, q⟩
    · cases h
    · have ha : a = (⟨0, 0⟩ : Cell) := by simpa using h
      rw [ha]
      exact List.mem_cons_self _ _
  have hw := hwp.2.2.2 ⟨0, 0⟩ hhead
  exact absurd hw (by decide)
